import Mathlib

/-!
Verification of the biomedical chunking core (`src/services/biomedical_chunker.py`).

Strings are modelled as `List Char` (`Str`).  The external PubMedBERT subword
tokenizer is modelled as an abstract parameter `tc : Str → Nat`; the repository's
wrapper `_token_count` (which returns 0 on blank text) is embedded as `tokenCount`.
All concrete evaluations instantiate `tc` with an executable character-level
tokenizer (`tcLen`), a valid instance of the spec's "fixed deterministic subword
tokenizer".  Whitespace is modelled at the ASCII level (space, tab, newline,
carriage return, vertical tab, form feed), which covers every character class
the chunker's regexes and `str.split`/`str.strip` distinguish.

Loops whose termination is part of what is being verified are embedded with an
explicit fuel parameter (`none`/truncation = the fuel ran out).  Character
scans that consume at least one character per step (`pySplitF`, `collapseWSF`,
`protectAbbrevF`, `splitProtGoF`) are run with fuel `length + 1`, which cannot
be exhausted; the word-splitter loop is run with fuel `|words| + 1`, shown
sufficient by `splitWordwiseFuel_total`; the assembler loop of
`_chunk_section_text`, whose termination is a claim under test, is exposed with
its fuel as a parameter.
-/

/-- Strings of the embedded program, as lists of characters. -/
abbrev Str := List Char

/-- ASCII whitespace, the characters recognised by Python's `str.split`,
`str.strip` and the regex class `\s` on ASCII text. -/
def isPyWS (c : Char) : Bool :=
  c == ' ' || c == '\t' || c == '\n' || c == '\r' || c == '\x0b' || c == '\x0c'

/-- The private-use placeholder `` used by `_protect_periods`. -/
def placeholderCh : Char := Char.ofNat 0xE000

/-- ASCII decimal digit, the `\d` class on ASCII text. -/
def isDigitCh (c : Char) : Bool := '0' ≤ c && c ≤ '9'

/-- ASCII uppercase letter, the regex class `[A-Z]`. -/
def isUpperCh (c : Char) : Bool := 'A' ≤ c && c ≤ 'Z'

/-- A sentence-ending punctuation character, the regex class `[.!?]`. -/
def isSentEnd (c : Char) : Bool := c == '.' || c == '!' || c == '?'

/-- ASCII lowercasing, as used by `re.IGNORECASE` matching on ASCII letters. -/
def lowerCh (c : Char) : Char :=
  if 'A' ≤ c && c ≤ 'Z' then Char.ofNat (c.toNat + 32) else c

/-- Python `str.split()` (split on whitespace runs, dropping empty pieces),
with fuel: every step consumes at least one character, so fuel `length + 1`
never runs out. -/
def pySplitF : Nat → Str → List Str
  | 0, _ => []
  | _ + 1, [] => []
  | f + 1, c :: rest =>
    if isPyWS c then pySplitF f rest
    else (c :: rest.takeWhile (fun d => !isPyWS d)) ::
      pySplitF f (rest.dropWhile (fun d => !isPyWS d))

/-- Python `str.split()`. -/
def pySplit (l : Str) : List Str := pySplitF (l.length + 1) l

/-- Drop trailing whitespace (helper for `pyStrip`). -/
def dropTrailWS (l : Str) : Str := (l.reverse.dropWhile isPyWS).reverse

/-- Python `str.strip()`: drop leading and trailing whitespace. -/
def pyStrip (l : Str) : Str := dropTrailWS (l.dropWhile isPyWS)

/-- `" ".join(...)` on a list of strings. -/
def joinSpace : List Str → Str
  | [] => []
  | [s] => s
  | s :: rest => s ++ ' ' :: joinSpace rest

/-- `re.sub(r"\s+", " ", text)` (collapse whitespace runs to single spaces),
with fuel: every step consumes at least one character. -/
def collapseWSF : Nat → Str → Str
  | 0, _ => []
  | _ + 1, [] => []
  | f + 1, c :: rest =>
    if isPyWS c then ' ' :: collapseWSF f (rest.dropWhile isPyWS)
    else c :: collapseWSF f rest

/-- `re.sub(r"\s+", " ", text)`. -/
def collapseWS (l : Str) : Str := collapseWSF (l.length + 1) l

/-- `_restore_periods`: replace every placeholder by a period. -/
def restorePeriods (l : Str) : Str :=
  l.map (fun c => if c == placeholderCh then '.' else c)

/-- First pass of `_protect_periods`: `re.sub(r"(\d)\.(\d)", ...)`, replacing
the period of every digit-period-digit occurrence (left-to-right,
non-overlapping) by the placeholder. -/
def protectDecimals : Str → Str
  | a :: '.' :: b :: rest =>
    if isDigitCh a && isDigitCh b then a :: placeholderCh :: b :: protectDecimals rest
    else a :: protectDecimals ('.' :: b :: rest)
  | c :: rest => c :: protectDecimals rest
  | [] => []

/-- Case-insensitive literal match of `pat` (given lowercased) against the head
of the input; returns the matched original characters and the rest. -/
def matchCI : List Char → Str → Option (Str × Str)
  | [], l => some ([], l)
  | _ :: _, [] => none
  | p :: ps, c :: cs =>
    if lowerCh c == p then (matchCI ps cs).map (fun r => (c :: r.1, r.2)) else none

/-- The alternative `et\s+al` of the abbreviation regex: `et`, one or more
whitespace characters, `al` (case-insensitive). -/
def matchEtAl (l : Str) : Option (Str × Str) :=
  match matchCI ['e', 't'] l with
  | none => none
  | some (m1, rest1) =>
    let run := rest1.takeWhile isPyWS
    if run.isEmpty then none
    else
      match matchCI ['a', 'l'] (rest1.dropWhile isPyWS) with
      | none => none
      | some (m2, rest2) => some (m1 ++ run ++ m2, rest2)

/-- Complete an abbreviation-alternative match with `\.(\s|$)`: require a
period, then either a whitespace character (kept, as group 2) or end of input.
Returns the emitted replacement `\1 placeholder \2` and the rest of the input. -/
def completeAbbrev : Option (Str × Str) → Option (Str × Str)
  | none => none
  | some (m, rest) =>
    match rest with
    | '.' :: c :: cs =>
      if isPyWS c then some (m ++ [placeholderCh, c], cs) else none
    | ['.'] => some (m ++ [placeholderCh], [])
    | _ => none

/-- The alternatives `Fig|Figs|et\s+al|Dr|Mr|Mrs|Ms|e\.g|i\.e|vs|No`, in regex
order (leftmost alternative first, with backtracking to later alternatives). -/
def abbrevAlts : List (Str → Option (Str × Str)) :=
  [ matchCI ['f', 'i', 'g'], matchCI ['f', 'i', 'g', 's'], matchEtAl,
    matchCI ['d', 'r'], matchCI ['m', 'r'], matchCI ['m', 'r', 's'],
    matchCI ['m', 's'], matchCI ['e', '.', 'g'], matchCI ['i', '.', 'e'],
    matchCI ['v', 's'], matchCI ['n', 'o'] ]

/-- Try the abbreviation alternatives in order at the current position; an
alternative succeeds only if `\.(\s|$)` also matches after it. -/
def tryAbbrevList : List (Str → Option (Str × Str)) → Str → Option (Str × Str)
  | [], _ => none
  | f :: fs, l =>
    match completeAbbrev (f l) with
    | some res => some res
    | none => tryAbbrevList fs l

/-- Second pass of `_protect_periods`: the abbreviation substitution
`re.sub(r"(Fig|Figs|et\s+al|Dr|Mr|Mrs|Ms|e\.g|i\.e|vs|No)\.(\s|$)", ...,
flags=IGNORECASE)`, scanning left to right and replacing each match by group 1,
the placeholder and group 2.  With fuel: every step consumes at least one
character (a match consumes at least three, see `tryAbbrevList_shrink`). -/
def protectAbbrevF : Nat → Str → Str
  | 0, l => l
  | _ + 1, [] => []
  | f + 1, c :: rest =>
    match tryAbbrevList abbrevAlts (c :: rest) with
    | some (em, r) => em ++ protectAbbrevF f r
    | none => c :: protectAbbrevF f rest

/-- The abbreviation substitution of `_protect_periods`. -/
def protectAbbrev (l : Str) : Str := protectAbbrevF (l.length + 1) l

/-- `_protect_periods`: decimals first, then abbreviations. -/
def protectPeriods (l : Str) : Str := protectAbbrev (protectDecimals l)

/-- The split `re.split(r"(?<=[.!?])\s+(?=[A-Z])|(?<=[.!?])$", protected)`,
with fuel (every step consumes at least one character).  Walks the protected
text with the accumulated (reversed) current fragment: a whitespace run
preceded by `[.!?]` and followed by an uppercase letter is a boundary (the run
is consumed); at end-of-string a preceding `[.!?]` produces a trailing empty
fragment, exactly as the empty match of the second regex branch does. -/
def splitProtGoF : Nat → Str → Str → List Str
  | 0, _, _ => []
  | _ + 1, [], accRev =>
    if isSentEnd (accRev.headD ' ') then [accRev.reverse, []] else [accRev.reverse]
  | f + 1, c :: rest, accRev =>
    if isPyWS c && isSentEnd (accRev.headD ' ') &&
        isUpperCh (((c :: rest).dropWhile isPyWS).headD ' ') then
      accRev.reverse :: splitProtGoF f ((c :: rest).dropWhile isPyWS) []
    else splitProtGoF f rest (c :: accRev)

/-- The sentence-boundary split of the protected text. -/
def splitProtected (l : Str) : List Str := splitProtGoF (l.length + 1) l []

/-- `_split_sentences_scientific`: strip, collapse whitespace, protect periods,
split at sentence boundaries, then strip each part, drop blank parts and
restore protected periods. -/
def splitSentencesScientific (text : Str) : List Str :=
  if pyStrip text = [] then []
  else
    (splitProtected (protectPeriods (collapseWS (pyStrip text)))).filterMap
      (fun p => if pyStrip p = [] then none else some (restorePeriods (pyStrip p)))

/-- `_token_count`: the wrapper around the external tokenizer `tc`; blank text
counts as 0 tokens, otherwise the tokenizer's count is returned. -/
def tokenCount (tc : Str → Nat) (text : Str) : Nat :=
  if pyStrip text = [] then 0 else tc text

/-- A concrete executable instance of the external subword tokenizer: the
character-level tokenizer (every character is one subword token).  Used to
instantiate the abstract `tc` on concrete inputs. -/
def tcLen (s : Str) : Nat := s.length

/-- The inner loop of `_split_long_sentence_wordwise`: grow `chunk_words` with
the next words while the joined candidate stays within `max_tokens`; stop as
soon as a candidate overflows and `chunk_words` is non-empty. -/
def growWin (tc : Str → Nat) (maxTokens : Nat) : List Str → List Str → List Str
  | [], cw => cw
  | w :: rest, cw =>
    if maxTokens < tokenCount tc (joinSpace (cw ++ [w])) && !cw.isEmpty then cw
    else growWin tc maxTokens rest (cw ++ [w])

/-- The advance of the start index at the end of one outer iteration of
`_split_long_sentence_wordwise`:
`start = end - word_overlap if end - word_overlap > start else start + len(chunk_words)`,
where `end = start + len(chunk_words)`. -/
def splitNextStart (tc : Str → Nat) (mt wo : Nat) (words : List Str) (start : Nat) : Nat :=
  let cwLen := (growWin tc mt (words.drop start) []).length
  if start + wo < start + cwLen then start + cwLen - wo else start + cwLen

/-- The outer loop of `_split_long_sentence_wordwise`, with fuel bounding the
number of outer iterations; `none` means the fuel ran out before the loop
finished.  The start index strictly increases each iteration
(`splitNextStart_gt`), so fuel `|words| + 1` always suffices
(`splitWordwiseFuel_total`). -/
def splitWordwiseFuel (tc : Str → Nat) (mt wo : Nat) (words : List Str) :
    Nat → Nat → Option (List Str)
  | _, 0 => none
  | start, fuel + 1 =>
    if start < words.length then
      (splitWordwiseFuel tc mt wo words (splitNextStart tc mt wo words start) fuel).map
        (fun rest =>
          (if (growWin tc mt (words.drop start) []).isEmpty then []
           else [joinSpace (growWin tc mt (words.drop start) [])]) ++ rest)
    else some []

/-- `_split_long_sentence_wordwise`: split one long sentence into token-safe
pieces at word boundaries, stepping the start back by `word_overlap` words
between pieces when that still advances.  Run with fuel `|words| + 1`, which
`splitWordwiseFuel_total` proves sufficient (the `getD` default is never
taken). -/
def splitLongSentenceWordwise (tc : Str → Nat) (text : Str) (mt wo : Nat) : List Str :=
  (splitWordwiseFuel tc mt wo (pySplit text) 0 ((pySplit text).length + 1)).getD []

/-- `_get_overlap_sentences`, iterating over the reversed sentence list:
stop once the accumulated count reaches the target, otherwise prepend the
sentence and add its token count. -/
def overlapGo (tc : Str → Nat) (target : Nat) : List Str → Nat → List Str → List Str
  | [], _, acc => acc
  | s :: rest, count, acc =>
    if target ≤ count then acc
    else overlapGo tc target rest (count + tokenCount tc s) (s :: acc)

/-- `_get_overlap_sentences(sents, target_overlap)`: trailing sentences of
`sents` whose cumulative token count approximates `target_overlap`, scanned
from the end backward. -/
def getOverlapSentences (tc : Str → Nat) (sents : List Str) (target : Nat) : List Str :=
  overlapGo tc target sents.reverse 0 []

/-- `flush_chunk`: join the current sentences, strip; fail (`none`) on an empty
current list, a blank join, or a join above the absolute ceiling of 512 tokens;
on success also recompute the overlap sentences.  Returns the optional flushed
text and the (possibly unchanged) overlap state. -/
def flushChunk (tc : Str → Nat) (ot : Nat) (current overlap : List Str) :
    Option Str × List Str :=
  if current.isEmpty then (none, overlap)
  else
    if (pyStrip (joinSpace current)).isEmpty then (none, overlap)
    else if 512 < tokenCount tc (pyStrip (joinSpace current)) then (none, overlap)
    else (some (pyStrip (joinSpace current)), getOverlapSentences tc current ot)

/-- Python `lst[-k:]` on a list (note `lst[-0:]` is the whole list). -/
def pyTakeLast (k : Nat) (l : List Str) : List Str :=
  if k = 0 then l else l.drop (l.length - k)

/-- A chunk produced by the assembler, tagged with bookkeeping provenance:
`fromSplit` is true for the word-wise fallback pieces of an oversized sentence,
and `seed` records the overlap sentences selected when the chunk was flushed
(empty for fallback pieces).  `_chunk_section_text`'s return value is the list
of `text` fields. -/
structure AChunk where
  text : Str
  fromSplit : Bool
  seed : List Str
deriving DecidableEq, Repr

instance : Inhabited AChunk := ⟨⟨[], true, []⟩⟩

/-- The loop state of `_chunk_section_text`: the index `i` into the sentence
list, `current_sentences`, `current_tokens`, `overlap_sentences`, and the
chunks emitted so far. -/
structure AsmSt where
  i : Nat
  current : List Str
  curTok : Nat
  overlap : List Str
  chunks : List AChunk
deriving DecidableEq, Repr

/-- The chunk appended by a successful `flush_chunk` call
(`t = flush_chunk(); if t: chunks.append(t)`), tagged non-fallback and carrying
the overlap sentences selected at this flush. -/
def flushedList (tc : Str → Nat) (ot : Nat) (cur ov : List Str) : List AChunk :=
  match (flushChunk tc ot cur ov).1 with
  | some t => [⟨t, false, (flushChunk tc ot cur ov).2⟩]
  | none => []

/-- The fallback pieces appended for an oversized sentence, keeping only those
within the 512 ceiling (`for sc in sub_chunks: if _token_count(sc) <= 512`). -/
def keptList (tc : Str → Nat) (mt wo : Nat) (sent : Str) : List AChunk :=
  ((splitLongSentenceWordwise tc sent mt wo).filter
    (fun sc => tokenCount tc sc ≤ 512)).map (fun sc => (⟨sc, true, []⟩ : AChunk))

/-- The overlap seed after the oversized-sentence branch:
`sub_chunks[-1].split()[-word_overlap:] if sub_chunks else []`. -/
def wordTailOv (tc : Str → Nat) (mt wo : Nat) (sent : Str) : List Str :=
  match (splitLongSentenceWordwise tc sent mt wo).getLast? with
  | some lastPiece => pyTakeLast wo (pySplit lastPiece)
  | none => []

/-- One step of the `while i < len(sentences)` loop of `_chunk_section_text`
(`.inl` = continue with the new state), or the final flush after the loop
(`.inr` = the finished chunk list). -/
def asmStep (tc : Str → Nat) (mt ot wo : Nat) (sentences : List Str) (σ : AsmSt) :
    AsmSt ⊕ List AChunk :=
  if σ.i < sentences.length then
    let sent := sentences.getD σ.i []
    if mt < tokenCount tc sent then
      -- single sentence exceeds max_tokens: flush, then split word-wise
      let ov := wordTailOv tc mt wo sent
      let cur : List Str := if ov.isEmpty then [] else [joinSpace ov]
      .inl ⟨σ.i + 1, cur,
        (match cur.head? with
         | some s => tokenCount tc s
         | none => 0),
        ov,
        σ.chunks ++ flushedList tc ot σ.current σ.overlap ++ keptList tc mt wo sent⟩
    else if mt < σ.curTok + tokenCount tc sent ∧ ¬σ.current.isEmpty then
      -- would exceed max_tokens: flush and restart from the overlap copy,
      -- re-evaluating the same sentence (i unchanged)
      .inl ⟨σ.i, (flushChunk tc ot σ.current σ.overlap).2,
        (((flushChunk tc ot σ.current σ.overlap).2).map (tokenCount tc)).sum,
        (flushChunk tc ot σ.current σ.overlap).2,
        σ.chunks ++ flushedList tc ot σ.current σ.overlap⟩
    else
      .inl ⟨σ.i + 1, σ.current ++ [sent], σ.curTok + tokenCount tc sent,
        σ.overlap, σ.chunks⟩
  else
    -- after the loop: flush any remaining current (with the redundant ≤ 512 re-check)
    .inr (σ.chunks ++
      match (flushChunk tc ot σ.current σ.overlap).1 with
      | some t =>
        if tokenCount tc t ≤ 512 then
          [⟨t, false, (flushChunk tc ot σ.current σ.overlap).2⟩]
        else []
      | none => [])

/-- The loop of `_chunk_section_text`, with fuel bounding the number of
iterations; `none` means the fuel ran out before the loop finished. -/
def asmLoopFuel (tc : Str → Nat) (mt ot wo : Nat) (sentences : List Str) :
    Nat → AsmSt → Option (List AChunk)
  | 0, _ => none
  | fuel + 1, σ =>
    match asmStep tc mt ot wo sentences σ with
    | .inl σ2 => asmLoopFuel tc mt ot wo sentences fuel σ2
    | .inr out => some out

/-- `_chunk_section_text`, keeping the provenance tags of each chunk. -/
def chunkSectionTextTaggedFuel (fuel : Nat) (tc : Str → Nat) (text : Str)
    (mt ot wo : Nat) : Option (List AChunk) :=
  let sentences := splitSentencesScientific text
  if sentences.isEmpty then some []
  else asmLoopFuel tc mt ot wo sentences fuel ⟨0, [], 0, [], []⟩

/-- `_chunk_section_text`: the chunk texts it returns (`none` = the fuel ran
out, i.e. the loop did not finish within `fuel` iterations). -/
def chunkSectionTextFuel (fuel : Nat) (tc : Str → Nat) (text : Str)
    (mt ot wo : Nat) : Option (List Str) :=
  (chunkSectionTextTaggedFuel fuel tc text mt ot wo).map (fun l => l.map AChunk.text)

/-- The `metadata` mapping attached to every chunk record. -/
structure ChunkMeta where
  docId : Str
  docTitle : Str
  sourceUrl : Str
  sectionTitle : Str
  sectionOrder : Nat
  chunkIndex : Nat
deriving DecidableEq, Repr

/-- A chunk record (`{"text": ..., "metadata": {...}}`) as returned by
`chunk_section` and `chunk_paper_sections`. -/
structure ChunkRec where
  text : Str
  metadata : ChunkMeta
deriving DecidableEq, Repr

/-- The metadata-attachment loop of `chunk_section` over the raw chunk texts:
a raw text above the 512 ceiling is re-split word-wise (with max 480) into
pieces with synthesized indices `idx * 10 + j` (or `idx` for one piece);
otherwise the stripped text gets the sequential index `idx`. -/
def buildChunkRecords (tc : Str → Nat) (wo : Nat)
    (docId docTitle sourceUrl sectionTitle : Str) (sectionOrder : Nat)
    (raw : List Str) : List ChunkRec :=
  (raw.enum.map (fun p =>
    if 512 < tokenCount tc p.2 then
      let sub := splitLongSentenceWordwise tc p.2 480 wo
      sub.enum.map (fun q =>
        ⟨pyStrip q.2,
         ⟨docId, docTitle, sourceUrl, sectionTitle, sectionOrder,
          if sub.length = 1 then p.1 else p.1 * 10 + q.1⟩⟩)
    else
      [⟨pyStrip p.2,
        ⟨docId, docTitle, sourceUrl, sectionTitle, sectionOrder, p.1⟩⟩])).flatten

/-- `chunk_section`: empty/blank section text yields no chunks; otherwise the
raw texts of `_chunk_section_text` get their metadata attached. -/
def chunkSectionFuel (fuel : Nat) (tc : Str → Nat)
    (sectionText docId docTitle sourceUrl sectionTitle : Str)
    (sectionOrder mt ot wo : Nat) : Option (List ChunkRec) :=
  if (pyStrip sectionText).isEmpty then some []
  else
    (chunkSectionTextFuel fuel tc sectionText mt ot wo).map
      (buildChunkRecords tc wo docId docTitle sourceUrl sectionTitle sectionOrder)

/-- The per-section loop of `chunk_paper_sections` over the ordered
title-to-text mapping: a section with an empty title or blank text is skipped
but still consumes a `section_order` slot. -/
def chunkPaperGo (fuel : Nat) (tc : Str → Nat) (docId docTitle sourceUrl : Str)
    (mt ot wo : Nat) : List (Str × Str) → Nat → Option (List ChunkRec)
  | [], _ => some []
  | (title, text) :: rest, ord =>
    if title.isEmpty || (pyStrip text).isEmpty then
      chunkPaperGo fuel tc docId docTitle sourceUrl mt ot wo rest (ord + 1)
    else
      (chunkSectionFuel fuel tc text docId docTitle sourceUrl title ord mt ot wo).bind
        (fun cs =>
          (chunkPaperGo fuel tc docId docTitle sourceUrl mt ot wo rest (ord + 1)).map
            (fun restCs => cs ++ restCs))

/-- `chunk_paper_sections`: chunk every section of the ordered mapping,
assigning `section_order` by input position. -/
def chunkPaperSectionsFuel (fuel : Nat) (tc : Str → Nat)
    (sections : List (Str × Str)) (docId docTitle sourceUrl : Str)
    (mt ot wo : Nat) : Option (List ChunkRec) :=
  chunkPaperGo fuel tc docId docTitle sourceUrl mt ot wo sections 0

/-- A string with no leading or trailing whitespace (and non-empty), i.e. a
fixed point of `pyStrip`.  Every sentence the segmenter emits and every word
`pySplit` emits is clean. -/
def Clean (s : Str) : Prop :=
  s ≠ [] ∧ isPyWS (s.headD ' ') = false ∧ isPyWS (s.getLastD ' ') = false

/-- A string none of whose characters is whitespace. -/
def NoWS (s : Str) : Prop := ∀ c ∈ s, isPyWS c = false

/-- The per-chunk invariant behind the absolute ceiling: every chunk text the
assembler emits is within 512 tokens and is a `pyStrip` fixed point. -/
def ChunkOK (tc : Str → Nat) (c : AChunk) : Prop :=
  tokenCount tc c.text ≤ 512 ∧ pyStrip c.text = c.text

/-- The overlap-continuity relation between two consecutive assembler chunks:
if both are flush-produced (non-fallback), the overlap sentences selected at
the first chunk's flush (its `seed`, i.e. `_get_overlap_sentences` of its
content) appear verbatim, joined by single spaces, as a prefix of the second
chunk's text. -/
def overlapSeeds (c1 c2 : AChunk) : Prop :=
  c1.fromSplit = false → c2.fromSplit = false →
    c2.text.take (joinSpace c1.seed).length = joinSpace c1.seed

/-- The absorbing "stuck" shape of the assembler state after every fallback
piece of an oversized sentence was dropped: `current_sentences` and
`overlap_sentences` both hold the single over-512-token word, whose flush
always fails. -/
def StuckSt (tc : Str → Nat) (σ : AsmSt) : Prop :=
  ∃ w, σ.current = [w] ∧ σ.overlap = [w] ∧ w ≠ [] ∧ NoWS w ∧
    512 < tokenCount tc w ∧ 512 < σ.curTok

/-- The loop invariant for the overlap-continuity property: all current and
overlap sentences are clean, the chunks so far satisfy the pairwise property,
and the last flushed chunk's selected overlap is linked to the present state
(it is a prefix of `current_sentences` and equals `overlap_sentences`), unless
the last chunk is a fallback piece or the state is stuck. -/
def SeedInv (tc : Str → Nat) (σ : AsmSt) : Prop :=
  (∀ s ∈ σ.current, Clean s) ∧ (∀ s ∈ σ.overlap, Clean s) ∧
  List.Chain' overlapSeeds σ.chunks ∧
  (match σ.chunks.getLast? with
   | none => True
   | some c => c.fromSplit = true ∨
       (σ.current.take c.seed.length = c.seed ∧ σ.overlap = c.seed) ∨
       StuckSt tc σ)

/-- A 301-token sentence (301 characters under the character-level tokenizer):
"A" followed by 299 "a"s and a period. -/
def divergeSentA : Str := 'A' :: (List.replicate 299 'a' ++ ['.'])

/-- A second 301-token sentence: "B" followed by 299 "b"s and a period. -/
def divergeSentB : Str := 'B' :: (List.replicate 299 'b' ++ ['.'])

/-- A section of two 301-token sentences.  With the default parameters
(`max_tokens = 480`, `overlap_tokens = 80`) the two sentences do not fit in one
chunk, and the overlap reseeding keeps the full first sentence, so the
assembler's flush-and-re-evaluate step never makes progress. -/
def divergeText : Str := divergeSentA ++ ' ' :: divergeSentB

/-- A single 521-token word sentence ("X", 519 "x"s, "."): its token count
cannot be reduced below the 512 ceiling by word-wise splitting. -/
def oversizedWordX : Str := 'X' :: (List.replicate 519 'x' ++ ['.'])

/-- A single 531-token word sentence ("W", 529 "w"s, "."). -/
def oversizedWordW : Str := 'W' :: (List.replicate 529 'w' ++ ['.'])

theorem dropWhileLenLe (p : Char → Bool) (l : List Char) :
    (l.dropWhile p).length ≤ l.length := by
  induction l with
  | nil => simp [List.dropWhile]
  | cons c rest ih =>
    simp only [List.dropWhile]
    split
    · simp; omega
    · simp

theorem matchCI_length {pat : List Char} {l m r : Str}
    (h : matchCI pat l = some (m, r)) : r.length + pat.length = l.length := by
  induction pat generalizing l m r with
  | nil =>
    simp only [matchCI, Option.some.injEq, Prod.mk.injEq] at h
    simp [← h.2]
  | cons p ps ih =>
    cases l with
    | nil => simp [matchCI] at h
    | cons c cs =>
      simp only [matchCI] at h
      split at h
      · cases h2 : matchCI ps cs with
        | none => rw [h2] at h; simp at h
        | some pr =>
          rw [h2] at h
          simp only [Option.map_some', Option.some.injEq, Prod.mk.injEq] at h
          obtain ⟨h3, h4⟩ := h
          have h5 := ih (m := pr.1) (r := pr.2) (by simpa using h2)
          subst h4
          simp only [List.length_cons]
          omega
      · simp at h

theorem matchCI_le {pat : List Char} {l m r : Str}
    (h : matchCI pat l = some (m, r)) : r.length ≤ l.length := by
  have := matchCI_length h
  omega

theorem matchEtAl_le {l m r : Str} (h : matchEtAl l = some (m, r)) :
    r.length ≤ l.length := by
  unfold matchEtAl at h
  cases h1 : matchCI ['e', 't'] l with
  | none => rw [h1] at h; simp at h
  | some p1 =>
    rw [h1] at h
    simp only at h
    split at h
    · simp at h
    · cases h2 : matchCI ['a', 'l'] (p1.2.dropWhile isPyWS) with
      | none =>
        rw [show (matchCI ['a', 'l'] (List.dropWhile isPyWS p1.2)) = none from h2] at h
        simp at h
      | some p2 =>
        rw [show (matchCI ['a', 'l'] (List.dropWhile isPyWS p1.2)) = some p2 from h2] at h
        simp only [Option.some.injEq, Prod.mk.injEq] at h
        have e1 := matchCI_le (m := p1.1) (r := p1.2) (by simpa using h1)
        have e2 := matchCI_le (m := p2.1) (r := p2.2) (by simpa using h2)
        have e3 := dropWhileLenLe isPyWS p1.2
        have : r = p2.2 := by rw [← h.2]
        subst this
        omega

theorem completeAbbrev_shrink {o : Option (Str × Str)} {e r : Str}
    (h : completeAbbrev o = some (e, r)) :
    ∃ m rest, o = some (m, rest) ∧ r.length < rest.length := by
  match o with
  | none => simp [completeAbbrev] at h
  | some (m, rest) =>
    refine ⟨m, rest, rfl, ?_⟩
    match rest with
    | '.' :: c :: cs =>
      simp only [completeAbbrev] at h
      split at h
      · simp only [Option.some.injEq, Prod.mk.injEq] at h
        rw [← h.2]
        simp only [List.length_cons]
        omega
      · simp at h
    | ['.'] =>
      simp only [completeAbbrev, Option.some.injEq, Prod.mk.injEq] at h
      rw [← h.2]
      simp
    | [] => simp [completeAbbrev] at h
    | a :: b :: cs =>
      by_cases ha : a = '.'
      · subst ha
        simp only [completeAbbrev] at h
        split at h
        · simp only [Option.some.injEq, Prod.mk.injEq] at h
          rw [← h.2]; simp only [List.length_cons]; omega
        · simp at h
      · simp [completeAbbrev, ha] at h
    | [a] =>
      by_cases ha : a = '.'
      · subst ha
        simp only [completeAbbrev, Option.some.injEq, Prod.mk.injEq] at h
        rw [← h.2]; simp
      · simp [completeAbbrev, ha] at h

theorem tryAbbrevList_shrink {fs : List (Str → Option (Str × Str))} {l e r : Str}
    (hb : ∀ f ∈ fs, ∀ m rest, f l = some (m, rest) → rest.length ≤ l.length)
    (h : tryAbbrevList fs l = some (e, r)) : r.length < l.length := by
  induction fs with
  | nil => simp [tryAbbrevList] at h
  | cons f fs ih =>
    simp only [tryAbbrevList] at h
    cases hc : completeAbbrev (f l) with
    | none =>
      rw [hc] at h
      exact ih (fun g hg => hb g (List.mem_cons_of_mem f hg)) h
    | some res =>
      rw [hc] at h
      simp only [Option.some.injEq] at h
      subst h
      obtain ⟨m, rest, hfl, hlt⟩ := completeAbbrev_shrink hc
      have := hb f (List.mem_cons_self f fs) m rest hfl
      omega

theorem abbrevAlts_le :
    ∀ f ∈ abbrevAlts, ∀ (l m rest : Str), f l = some (m, rest) → rest.length ≤ l.length := by
  intro f hf l m rest hr
  simp only [abbrevAlts, List.mem_cons, List.not_mem_nil, or_false] at hf
  rcases hf with h | h | h | h | h | h | h | h | h | h | h <;> subst h
  case inl => exact matchCI_le hr
  all_goals first
    | exact matchCI_le hr
    | exact matchEtAl_le hr

theorem getLastD_mem {s : Str} (h : s ≠ []) (d : Char) : s.getLastD d ∈ s := by
  cases s with
  | nil => exact absurd rfl h
  | cons a t =>
    rw [List.getLastD_eq_getLast? , List.getLast?_eq_getLast (a :: t) (by simp)]
    simp only [Option.getD_some]
    exact List.getLast_mem _

theorem clean_of_noWS {s : Str} (hne : s ≠ []) (h : NoWS s) : Clean s := by
  refine ⟨hne, ?_, h _ (getLastD_mem hne ' ')⟩
  cases s with
  | nil => exact absurd rfl hne
  | cons a t => exact h a (List.mem_cons_self a t)

theorem dropWhile_headD_not {p : Char → Bool} {l : Str} (h : l.dropWhile p ≠ [])
    (d : Char) : p ((l.dropWhile p).headD d) = false := by
  induction l with
  | nil => simp [List.dropWhile] at h
  | cons c rest ih =>
    rw [List.dropWhile_cons] at h ⊢
    by_cases hp : p c = true
    · rw [if_pos hp] at h ⊢
      exact ih h
    · rw [if_neg hp] at h ⊢
      simpa using hp

theorem dropTrailWS_append (l : Str) :
    l = dropTrailWS l ++ (l.reverse.takeWhile isPyWS).reverse := by
  unfold dropTrailWS
  conv_lhs => rw [← l.reverse_reverse, ← List.takeWhile_append_dropWhile
    (p := isPyWS) (l := l.reverse)]
  rw [List.reverse_append]

theorem dropTrailWS_getLastD {l : Str} (h : dropTrailWS l ≠ []) (d : Char) :
    isPyWS ((dropTrailWS l).getLastD d) = false := by
  unfold dropTrailWS at h ⊢
  rw [List.getLastD_eq_getLast?, List.getLast?_reverse]
  have hne : l.reverse.dropWhile isPyWS ≠ [] := by
    intro hc
    rw [hc] at h
    simp at h
  have := dropWhile_headD_not (p := isPyWS) (l := l.reverse) hne d
  rwa [List.headD_eq_head?] at this

theorem pyStrip_clean {l : Str} (h : pyStrip l ≠ []) : Clean (pyStrip l) := by
  refine ⟨h, ?_, dropTrailWS_getLastD (by exact h) ' '⟩
  unfold pyStrip at h ⊢
  have hm : l.dropWhile isPyWS ≠ [] := by
    intro hc
    rw [hc] at h
    simp [dropTrailWS] at h
  have hhead := dropWhile_headD_not (p := isPyWS) (l := l) hm ' '
  have happ := dropTrailWS_append (l.dropWhile isPyWS)
  cases hd : dropTrailWS (l.dropWhile isPyWS) with
  | nil => exact absurd hd h
  | cons a t =>
    rw [hd] at happ
    rw [happ] at hhead
    simpa using hhead

theorem pyStrip_eq_self {s : Str} (h : Clean s) : pyStrip s = s := by
  obtain ⟨hne, hh, hl⟩ := h
  unfold pyStrip dropTrailWS
  have h1 : s.dropWhile isPyWS = s := by
    cases s with
    | nil => exact absurd rfl hne
    | cons a t =>
      rw [List.dropWhile_cons, if_neg]
      simpa using hh
  rw [h1]
  have h2 : s.reverse.dropWhile isPyWS = s.reverse := by
    cases hr : s.reverse with
    | nil => simp
    | cons b u =>
      rw [List.dropWhile_cons, if_neg]
      have : s.getLastD ' ' = b := by
        rw [List.getLastD_eq_getLast?, ← List.head?_reverse, hr]
        rfl
      rw [this] at hl
      simpa using hl
  rw [h2, List.reverse_reverse]

theorem pyStrip_idem (l : Str) : pyStrip (pyStrip l) = pyStrip l := by
  by_cases h : pyStrip l = []
  · rw [h]
    rfl
  · exact pyStrip_eq_self (pyStrip_clean h)

theorem joinSpace_cons_of_ne {s : Str} {rest : List Str} (h : rest ≠ []) :
    joinSpace (s :: rest) = s ++ ' ' :: joinSpace rest := by
  cases rest with
  | nil => exact absurd rfl h
  | cons t u => rfl

theorem joinSpace_clean {ss : List Str} (hne : ss ≠ [])
    (h : ∀ s ∈ ss, Clean s) : Clean (joinSpace ss) := by
  induction ss with
  | nil => exact absurd rfl hne
  | cons s rest ih =>
    by_cases hr : rest = []
    · subst hr
      exact h s (by simp)
    · have hs := h s (List.mem_cons_self s rest)
      have hrest := ih hr (fun t ht => h t (List.mem_cons_of_mem s ht))
      obtain ⟨hne1, hh1, hl1⟩ := hs
      obtain ⟨hne2, hh2, hl2⟩ := hrest
      rw [joinSpace_cons_of_ne hr]
      refine ⟨by simp [hne1], ?_, ?_⟩
      · cases s with
        | nil => exact absurd rfl hne1
        | cons a t => simpa using hh1
      · rw [List.getLastD_eq_getLast?,
          List.getLast?_append_of_ne_nil s
            (show (' ' :: joinSpace rest) ≠ [] by simp)]
        cases hj : joinSpace rest with
        | nil => exact absurd hj hne2
        | cons b u =>
          rw [hj] at hl2
          have hstep : (' ' :: b :: u).getLast? = (b :: u).getLast? := by
            simp [List.getLast?]
          rw [hstep, ← List.getLastD_eq_getLast?]
          exact hl2

theorem restorePeriods_clean {s : Str} (h : Clean s) : Clean (restorePeriods s) := by
  obtain ⟨hne, hh, hl⟩ := h
  have hws : ∀ c : Char, isPyWS (if c == placeholderCh then '.' else c) = isPyWS c := by
    intro c
    by_cases hc : c == placeholderCh
    · have : c = placeholderCh := by simpa using hc
      subst this
      rw [if_pos (by simp)]
      decide
    · rw [if_neg hc]
  unfold restorePeriods
  cases s with
  | nil => exact absurd rfl hne
  | cons a t =>
    refine ⟨by simp, ?_, ?_⟩
    · have hh2 : isPyWS a = false := by simpa using hh
      simp only [List.map_cons, List.headD_cons]
      rw [hws a]
      exact hh2
    · rw [List.getLastD_eq_getLast?, List.getLast?_map]
      cases hg : (a :: t).getLast? with
      | none => simp at hg
      | some b =>
        rw [List.getLastD_eq_getLast?, hg] at hl
        simp only [Option.map_some', Option.getD_some]
        rw [hws b]
        exact hl

theorem splitSentencesScientific_clean {text : Str} :
    ∀ s ∈ splitSentencesScientific text, Clean s := by
  intro s hs
  unfold splitSentencesScientific at hs
  split at hs
  · simp at hs
  · rw [List.mem_filterMap] at hs
    obtain ⟨p, _, hp⟩ := hs
    split at hp
    · simp at hp
    · rename_i hpe
      simp only [Option.some.injEq] at hp
      subst hp
      exact restorePeriods_clean (pyStrip_clean hpe)

theorem pySplitF_nil (f : Nat) : pySplitF f [] = [] := by
  cases f <;> rfl

theorem pySplitF_words : ∀ (f : Nat) (l : Str), ∀ w ∈ pySplitF f l, w ≠ [] ∧ NoWS w := by
  intro f
  induction f with
  | zero => intro l w hw; simp [pySplitF] at hw
  | succ f ih =>
    intro l w hw
    cases l with
    | nil => simp [pySplitF] at hw
    | cons c rest =>
      rw [pySplitF] at hw
      split at hw
      · exact ih rest w hw
      · rename_i hc
        rcases List.mem_cons.mp hw with h | h
        · subst h
          refine ⟨by simp, ?_⟩
          intro d hd
          rcases List.mem_cons.mp hd with h2 | h2
          · subst h2
            simpa using hc
          · have := List.mem_takeWhile_imp h2
            simpa using this
        · exact ih _ w h

theorem pySplit_words {l : Str} : ∀ w ∈ pySplit l, w ≠ [] ∧ NoWS w :=
  pySplitF_words (l.length + 1) l

theorem noWS_takeWhile_self {l : Str} (h : NoWS l) :
    l.takeWhile (fun d => !isPyWS d) = l := by
  induction l with
  | nil => simp
  | cons c rest ih =>
    rw [List.takeWhile_cons, if_pos (by simp [h c (by simp)])]
    rw [ih (fun d hd => h d (List.mem_cons_of_mem c hd))]

theorem noWS_dropWhile_nil {l : Str} (h : NoWS l) :
    l.dropWhile (fun d => !isPyWS d) = [] := by
  induction l with
  | nil => simp
  | cons c rest ih =>
    rw [List.dropWhile_cons, if_pos (by simp [h c (by simp)])]
    exact ih (fun d hd => h d (List.mem_cons_of_mem c hd))

theorem pySplit_single {w : Str} (hne : w ≠ []) (h : NoWS w) : pySplit w = [w] := by
  cases w with
  | nil => exact absurd rfl hne
  | cons c rest =>
    unfold pySplit
    rw [pySplitF, if_neg (by simp [h c (by simp)])]
    rw [noWS_takeWhile_self (fun d hd => h d (List.mem_cons_of_mem c hd))]
    rw [noWS_dropWhile_nil (fun d hd => h d (List.mem_cons_of_mem c hd))]
    rw [pySplitF_nil]

theorem growWin_len_ge (tc : Str → Nat) (mt : Nat) (l cw : List Str) :
    cw.length ≤ (growWin tc mt l cw).length := by
  induction l generalizing cw with
  | nil => simp [growWin]
  | cons w rest ih =>
    simp only [growWin]
    split
    · exact Nat.le_refl _
    · have := ih (cw ++ [w])
      simp only [List.length_append, List.length_cons, List.length_nil] at this
      omega

theorem growWin_pos (tc : Str → Nat) (mt : Nat) (w : Str) (rest cw : List Str) :
    1 ≤ (growWin tc mt (w :: rest) cw).length ∨ cw ≠ [] := by
  by_cases hcw : cw = []
  · left
    subst hcw
    have hstep : growWin tc mt (w :: rest) [] = growWin tc mt rest [w] := by
      simp [growWin]
    rw [hstep]
    have := growWin_len_ge tc mt rest [w]
    simp only [List.length_cons, List.length_nil] at this
    omega
  · right; exact hcw

theorem splitNextStart_gt (tc : Str → Nat) (mt wo : Nat) (words : List Str)
    (start : Nat) (h : start < words.length) :
    start < splitNextStart tc mt wo words start := by
  have hd : words.drop start ≠ [] := by
    intro hnil
    have := List.length_drop start words
    rw [hnil] at this
    simp at this
    omega
  obtain ⟨w, rest, hw⟩ := List.exists_cons_of_ne_nil hd
  have hpos : 1 ≤ (growWin tc mt (words.drop start) []).length := by
    rw [hw]
    rcases growWin_pos tc mt w rest [] with h1 | h1
    · exact h1
    · exact absurd rfl h1
  simp only [splitNextStart]
  split
  · omega
  · omega

theorem growWin_bound (tc : Str → Nat) (mt : Nat) (l : List Str) :
    ∀ cw, (cw = [] ∨ tokenCount tc (joinSpace cw) ≤ mt ∨ cw.length = 1) →
    (growWin tc mt l cw = [] ∨
      tokenCount tc (joinSpace (growWin tc mt l cw)) ≤ mt ∨
      (growWin tc mt l cw).length = 1) := by
  induction l with
  | nil =>
    intro cw hcw
    rw [growWin]
    rcases hcw with h | h
    · exact Or.inl h
    · exact Or.inr h
  | cons w rest ih =>
    intro cw hcw
    rw [growWin]
    split
    · rcases hcw with h | h
      · exact Or.inl h
      · exact Or.inr h
    · rename_i hcond
      apply ih
      simp only [Bool.and_eq_true, decide_eq_true_eq, Bool.not_eq_true',
        not_and_or, not_lt] at hcond
      rcases hcond with h | h
      · right; left; exact h
      · right; right
        have hnil : cw = [] := by
          by_contra hne
          exact absurd (List.isEmpty_eq_false.mpr hne) (by simpa using h)
        subst hnil
        simp

theorem growWin_mem (tc : Str → Nat) (mt : Nat) :
    ∀ (l cw : List Str), ∀ x ∈ growWin tc mt l cw, x ∈ cw ∨ x ∈ l := by
  intro l
  induction l with
  | nil =>
    intro cw x hx
    rw [growWin] at hx
    exact Or.inl hx
  | cons w rest ih =>
    intro cw x hx
    rw [growWin] at hx
    split at hx
    · exact Or.inl hx
    · rcases ih (cw ++ [w]) x hx with h | h
      · rcases List.mem_append.mp h with h2 | h2
        · exact Or.inl h2
        · right
          simp only [List.mem_singleton] at h2
          subst h2
          simp
      · right
        exact List.mem_cons_of_mem w h

theorem splitWordwiseFuel_total (tc : Str → Nat) (mt wo : Nat) (words : List Str) :
    ∀ fuel start, words.length - start < fuel →
    (splitWordwiseFuel tc mt wo words start fuel).isSome := by
  intro fuel
  induction fuel with
  | zero => intro start h; omega
  | succ f ih =>
    intro start h
    rw [splitWordwiseFuel]
    by_cases hs : start < words.length
    · rw [if_pos hs]
      have hgt := splitNextStart_gt tc mt wo words start hs
      have hrec := ih (splitNextStart tc mt wo words start) (by omega)
      cases hr : splitWordwiseFuel tc mt wo words (splitNextStart tc mt wo words start) f with
      | none => rw [hr] at hrec; simp at hrec
      | some r => simp
    · rw [if_neg hs]; simp

theorem splitWordwiseFuel_mono (tc : Str → Nat) (mt wo : Nat) (words : List Str) :
    ∀ fuel start r, splitWordwiseFuel tc mt wo words start fuel = some r →
    splitWordwiseFuel tc mt wo words start (fuel + 1) = some r := by
  intro fuel
  induction fuel with
  | zero => intro start r h; simp [splitWordwiseFuel] at h
  | succ f ih =>
    intro start r h
    rw [splitWordwiseFuel] at h
    rw [splitWordwiseFuel]
    by_cases hs : start < words.length
    · rw [if_pos hs] at h ⊢
      cases hr : splitWordwiseFuel tc mt wo words (splitNextStart tc mt wo words start) f with
      | none => rw [hr] at h; simp at h
      | some r2 =>
        rw [hr] at h
        rw [ih _ _ hr]
        exact h
    · rw [if_neg hs] at h ⊢
      exact h

theorem splitWordwiseFuel_mono_le (tc : Str → Nat) (mt wo : Nat) (words : List Str)
    (fuel fuel2 : Nat) (hle : fuel ≤ fuel2) (start : Nat) (r : List Str)
    (h : splitWordwiseFuel tc mt wo words start fuel = some r) :
    splitWordwiseFuel tc mt wo words start fuel2 = some r := by
  induction fuel2 with
  | zero =>
    have : fuel = 0 := by omega
    subst this
    exact h
  | succ f2 ih =>
    by_cases heq : fuel = f2 + 1
    · subst heq; exact h
    · exact splitWordwiseFuel_mono tc mt wo words f2 start r (ih (by omega))

theorem splitWordwiseFuel_pieces (tc : Str → Nat) (mt wo : Nat) (words : List Str) :
    ∀ fuel start r, splitWordwiseFuel tc mt wo words start fuel = some r →
    ∀ piece ∈ r, tokenCount tc piece ≤ mt ∨ piece ∈ words := by
  intro fuel
  induction fuel with
  | zero => intro start r h; simp [splitWordwiseFuel] at h
  | succ f ih =>
    intro start r h piece hp
    rw [splitWordwiseFuel] at h
    by_cases hs : start < words.length
    · rw [if_pos hs] at h
      cases hr : splitWordwiseFuel tc mt wo words (splitNextStart tc mt wo words start) f with
      | none => rw [hr] at h; simp at h
      | some r2 =>
        rw [hr] at h
        simp only [Option.map_some', Option.some.injEq] at h
        subst h
        rcases List.mem_append.mp hp with hm | hm
        · have hgw := growWin_bound tc mt (words.drop start) [] (Or.inl rfl)
          split at hm
          · simp at hm
          · rename_i hne
            simp only [List.mem_singleton] at hm
            subst hm
            rcases hgw with h2 | h2 | h2
            · exact absurd (List.isEmpty_iff.mpr h2) (by simpa using hne)
            · exact Or.inl h2
            · right
              obtain ⟨w, hw⟩ := List.length_eq_one.mp h2
              rw [hw]
              have hwm : w ∈ growWin tc mt (words.drop start) [] := by
                rw [hw]; simp
              rcases growWin_mem tc mt (words.drop start) [] w hwm with h3 | h3
              · simp at h3
              · have := List.mem_of_mem_drop h3
                simpa [joinSpace] using this
        · exact ih _ r2 hr piece hm
    · rw [if_neg hs] at h
      simp only [Option.some.injEq] at h
      subst h
      simp at hp

theorem splitWordwiseFuel_clean (tc : Str → Nat) (mt wo : Nat) (text : Str) :
    ∀ fuel start r, splitWordwiseFuel tc mt wo (pySplit text) start fuel = some r →
    ∀ piece ∈ r, Clean piece := by
  intro fuel
  induction fuel with
  | zero => intro start r h; simp [splitWordwiseFuel] at h
  | succ f ih =>
    intro start r h piece hp
    rw [splitWordwiseFuel] at h
    by_cases hs : start < (pySplit text).length
    · rw [if_pos hs] at h
      cases hr : splitWordwiseFuel tc mt wo (pySplit text)
          (splitNextStart tc mt wo (pySplit text) start) f with
      | none => rw [hr] at h; simp at h
      | some r2 =>
        rw [hr] at h
        simp only [Option.map_some', Option.some.injEq] at h
        subst h
        rcases List.mem_append.mp hp with hm | hm
        · split at hm
          · simp at hm
          · rename_i hne
            simp only [List.mem_singleton] at hm
            subst hm
            have hcwne : growWin tc mt ((pySplit text).drop start) [] ≠ [] := by
              intro hc
              exact absurd (List.isEmpty_iff.mpr hc) (by simpa using hne)
            refine joinSpace_clean hcwne ?_
            intro w hw
            rcases growWin_mem tc mt ((pySplit text).drop start) [] w hw with h3 | h3
            · simp at h3
            · have hmem := List.mem_of_mem_drop h3
              obtain ⟨hne2, hnws⟩ := pySplit_words w hmem
              exact clean_of_noWS hne2 hnws
        · exact ih _ r2 hr piece hm
    · rw [if_neg hs] at h
      simp only [Option.some.injEq] at h
      subst h
      simp at hp

theorem splitWordwise_pieces (tc : Str → Nat) (text : Str) (mt wo : Nat) :
    ∀ piece ∈ splitLongSentenceWordwise tc text mt wo,
    tokenCount tc piece ≤ mt ∨ piece ∈ pySplit text := by
  intro piece hp
  unfold splitLongSentenceWordwise at hp
  cases hr : splitWordwiseFuel tc mt wo (pySplit text) 0 ((pySplit text).length + 1) with
  | none => rw [hr] at hp; simp at hp
  | some r =>
    rw [hr] at hp
    simp only [Option.getD_some] at hp
    exact splitWordwiseFuel_pieces tc mt wo (pySplit text) _ 0 r hr piece hp

theorem splitWordwise_clean (tc : Str → Nat) (mt wo : Nat) (text : Str) :
    ∀ piece ∈ splitLongSentenceWordwise tc text mt wo, Clean piece := by
  intro piece hp
  unfold splitLongSentenceWordwise at hp
  cases hr : splitWordwiseFuel tc mt wo (pySplit text) 0 ((pySplit text).length + 1) with
  | none => rw [hr] at hp; simp at hp
  | some r =>
    rw [hr] at hp
    simp only [Option.getD_some] at hp
    exact splitWordwiseFuel_clean tc mt wo text _ 0 r hr piece hp

theorem flushChunk_eq_some {tc : Str → Nat} {ot : Nat} {cur ov : List Str}
    {t : Str} {ov2 : List Str} (h : flushChunk tc ot cur ov = (some t, ov2)) :
    t = pyStrip (joinSpace cur) ∧ tokenCount tc t ≤ 512 ∧
      ov2 = getOverlapSentences tc cur ot ∧ cur ≠ [] := by
  unfold flushChunk at h
  split at h
  · simp at h
  · rename_i hcur
    split at h
    · simp at h
    · split at h
      · simp at h
      · rename_i hstrip htok
        simp only [Prod.mk.injEq, Option.some.injEq] at h
        refine ⟨h.1.symm, ?_, h.2.symm, by simpa using hcur⟩
        rw [← h.1]
        omega

theorem flushChunk_cases (tc : Str → Nat) (ot : Nat) (cur ov : List Str) :
    flushChunk tc ot cur ov = (none, ov) ∨
      flushChunk tc ot cur ov =
        (some (pyStrip (joinSpace cur)), getOverlapSentences tc cur ot) := by
  unfold flushChunk
  split
  · exact Or.inl rfl
  · split
    · exact Or.inl rfl
    · split
      · exact Or.inl rfl
      · exact Or.inr rfl

theorem flushedList_OK (tc : Str → Nat) (ot : Nat) (cur ov : List Str) :
    ∀ c ∈ flushedList tc ot cur ov, ChunkOK tc c := by
  unfold flushedList
  rcases flushChunk_cases tc ot cur ov with hc | hc <;> rw [hc]
  · simp
  · intro c hcm
    simp only [List.mem_singleton] at hcm
    subst hcm
    obtain ⟨ht, htok, _, _⟩ := flushChunk_eq_some hc
    exact ⟨htok, by rw [ht]; exact pyStrip_idem _⟩

theorem keptList_OK (tc : Str → Nat) (mt wo : Nat) (sent : Str) :
    ∀ c ∈ keptList tc mt wo sent, ChunkOK tc c := by
  intro c hc
  unfold keptList at hc
  rw [List.mem_map] at hc
  obtain ⟨sc, hsc, hmk⟩ := hc
  rw [List.mem_filter] at hsc
  obtain ⟨hmem, hle⟩ := hsc
  subst hmk
  refine ⟨by simpa using hle, ?_⟩
  exact pyStrip_eq_self (splitWordwise_clean tc mt wo sent sc hmem)

theorem asmStep_inl_OK (tc : Str → Nat) (mt ot wo : Nat) (sentences : List Str)
    (σ σ2 : AsmSt) (hσ : ∀ c ∈ σ.chunks, ChunkOK tc c)
    (h : asmStep tc mt ot wo sentences σ = .inl σ2) :
    ∀ c ∈ σ2.chunks, ChunkOK tc c := by
  unfold asmStep at h
  split at h
  · dsimp only at h
    split at h
    · simp only [Sum.inl.injEq] at h
      subst h
      intro c hc
      simp only [List.append_assoc, List.mem_append] at hc
      rcases hc with hc | hc | hc
      · exact hσ c hc
      · exact flushedList_OK tc ot σ.current σ.overlap c hc
      · exact keptList_OK tc mt wo _ c hc
    · split at h
      · simp only [Sum.inl.injEq] at h
        subst h
        intro c hc
        simp only [List.mem_append] at hc
        rcases hc with hc | hc
        · exact hσ c hc
        · exact flushedList_OK tc ot σ.current σ.overlap c hc
      · simp only [Sum.inl.injEq] at h
        subst h
        exact hσ
  · simp at h

theorem asmStep_inr_OK (tc : Str → Nat) (mt ot wo : Nat) (sentences : List Str)
    (σ : AsmSt) (out : List AChunk) (hσ : ∀ c ∈ σ.chunks, ChunkOK tc c)
    (h : asmStep tc mt ot wo sentences σ = .inr out) :
    ∀ c ∈ out, ChunkOK tc c := by
  unfold asmStep at h
  split at h
  · dsimp only at h
    split at h
    · simp at h
    · split at h
      · simp at h
      · simp at h
  · simp only [Sum.inr.injEq] at h
    subst h
    intro c hc
    rw [List.mem_append] at hc
    rcases hc with hc | hc
    · exact hσ c hc
    · rcases flushChunk_cases tc ot σ.current σ.overlap with hfc | hfc <;>
        rw [hfc] at hc
      · simp at hc
      · simp only at hc
        split at hc
        · simp only [List.mem_singleton] at hc
          subst hc
          obtain ⟨ht, htok, _, _⟩ := flushChunk_eq_some hfc
          exact ⟨htok, by rw [ht]; exact pyStrip_idem _⟩
        · simp at hc

theorem asmLoopFuel_OK (tc : Str → Nat) (mt ot wo : Nat) (sentences : List Str) :
    ∀ fuel (σ : AsmSt) (out : List AChunk),
    (∀ c ∈ σ.chunks, ChunkOK tc c) →
    asmLoopFuel tc mt ot wo sentences fuel σ = some out →
    ∀ c ∈ out, ChunkOK tc c := by
  intro fuel
  induction fuel with
  | zero => intro σ out _ h; simp [asmLoopFuel] at h
  | succ f ih =>
    intro σ out hσ h
    rw [asmLoopFuel] at h
    cases hstep : asmStep tc mt ot wo sentences σ with
    | inl σ2 =>
      rw [hstep] at h
      exact ih σ2 out (asmStep_inl_OK tc mt ot wo sentences σ σ2 hσ hstep) h
    | inr o =>
      rw [hstep] at h
      simp only [Option.some.injEq] at h
      subst h
      exact asmStep_inr_OK tc mt ot wo sentences σ o hσ hstep

theorem flatten_singletons {α β : Type} (l : List α) (f : α → β) :
    (l.map (fun x => [f x])).flatten = l.map f := by
  induction l with
  | nil => simp
  | cons a t ih => simp [ih]

theorem buildChunkRecords_of_le (tc : Str → Nat) (wo : Nat)
    (docId docTitle sourceUrl sectionTitle : Str) (sectionOrder : Nat)
    (raw : List Str) (hraw : ∀ t ∈ raw, tokenCount tc t ≤ 512 ∧ pyStrip t = t) :
    buildChunkRecords tc wo docId docTitle sourceUrl sectionTitle sectionOrder raw =
      raw.enum.map (fun p =>
        ⟨p.2, ⟨docId, docTitle, sourceUrl, sectionTitle, sectionOrder, p.1⟩⟩) := by
  unfold buildChunkRecords
  have hmap : raw.enum.map (fun p =>
      if 512 < tokenCount tc p.2 then
        let sub := splitLongSentenceWordwise tc p.2 480 wo
        sub.enum.map (fun q =>
          (⟨pyStrip q.2,
           ⟨docId, docTitle, sourceUrl, sectionTitle, sectionOrder,
            if sub.length = 1 then p.1 else p.1 * 10 + q.1⟩⟩ : ChunkRec))
      else
        [⟨pyStrip p.2,
          ⟨docId, docTitle, sourceUrl, sectionTitle, sectionOrder, p.1⟩⟩]) =
      raw.enum.map (fun p =>
        [(⟨p.2, ⟨docId, docTitle, sourceUrl, sectionTitle, sectionOrder, p.1⟩⟩ : ChunkRec)]) := by
    apply List.map_congr_left
    intro p hp
    obtain ⟨hle, hstrip⟩ := hraw p.2 (List.snd_mem_of_mem_enum hp)
    rw [if_neg (by omega), hstrip]
  rw [hmap, flatten_singletons]

theorem chunkSectionTextTagged_OK (fuel : Nat) (tc : Str → Nat) (text : Str)
    (mt ot wo : Nat) (l : List AChunk)
    (h : chunkSectionTextTaggedFuel fuel tc text mt ot wo = some l) :
    ∀ ch ∈ l, ChunkOK tc ch := by
  unfold chunkSectionTextTaggedFuel at h
  dsimp only at h
  split at h
  · simp only [Option.some.injEq] at h
    subst h
    simp
  · exact asmLoopFuel_OK tc mt ot wo (splitSentencesScientific text) fuel
      ⟨0, [], 0, [], []⟩ l (by simp) h

theorem chunkSectionTextFuel_OK (fuel : Nat) (tc : Str → Nat) (text : Str)
    (mt ot wo : Nat) (out : List Str)
    (h : chunkSectionTextFuel fuel tc text mt ot wo = some out) :
    ∀ t ∈ out, tokenCount tc t ≤ 512 ∧ pyStrip t = t := by
  unfold chunkSectionTextFuel at h
  cases htag : chunkSectionTextTaggedFuel fuel tc text mt ot wo with
  | none => rw [htag] at h; simp at h
  | some l =>
    rw [htag] at h
    simp only [Option.map_some', Option.some.injEq] at h
    subst h
    intro t ht
    rw [List.mem_map] at ht
    obtain ⟨ch, hch, hte⟩ := ht
    subst hte
    exact chunkSectionTextTagged_OK fuel tc text mt ot wo l htag ch hch

/-- C1: for every section text, every tokenizer and all parameters with
`max_tokens ≤ 512`, every chunk text returned by `_chunk_section_text`
(`chunkSectionTextFuel`) and every chunk record returned by `chunk_section`
(`chunkSectionFuel`) has a token count at most 512, the absolute ceiling —
including adversarial inputs whose single words exceed the budget. -/
theorem claim_C1_absolute_ceiling (tc : Str → Nat) (fuel mt ot wo : Nat)
    (text docId docTitle sourceUrl sectionTitle : Str) (sectionOrder : Nat)
    (out : List Str) (recs : List ChunkRec) (hmt : mt ≤ 512)
    (h1 : chunkSectionTextFuel fuel tc text mt ot wo = some out)
    (h2 : chunkSectionFuel fuel tc text docId docTitle sourceUrl sectionTitle
      sectionOrder mt ot wo = some recs) :
    (∀ c ∈ out, tokenCount tc c ≤ 512) ∧
      (∀ r ∈ recs, tokenCount tc r.text ≤ 512) := by
  constructor
  · intro c hc
    exact (chunkSectionTextFuel_OK fuel tc text mt ot wo out h1 c hc).1
  · intro r hr
    unfold chunkSectionFuel at h2
    split at h2
    · simp only [Option.some.injEq] at h2
      subst h2
      simp at hr
    · rw [h1] at h2
      simp only [Option.map_some', Option.some.injEq] at h2
      subst h2
      rw [buildChunkRecords_of_le tc wo docId docTitle sourceUrl sectionTitle
        sectionOrder out (chunkSectionTextFuel_OK fuel tc text mt ot wo out h1)] at hr
      rw [List.mem_map] at hr
      obtain ⟨p, hp, hre⟩ := hr
      subst hre
      exact (chunkSectionTextFuel_OK fuel tc text mt ot wo out h1 p.2
        (List.snd_mem_of_mem_enum hp)).1

/-- Witness for C1 at a concrete input: section "Aa. Bb. Cc." with
`max_tokens = 7`, `overlap_tokens = 3`, `word_overlap = 1` and the
character-level tokenizer. -/
theorem claim_C1_absolute_ceiling_witness :
    (∀ c ∈ ["Aa. Bb.".toList, "Bb. Cc.".toList], tokenCount tcLen c ≤ 512) ∧
      (∀ r ∈ [(⟨"Aa. Bb.".toList, ⟨"d".toList, "t".toList, "u".toList,
            "S".toList, 0, 0⟩⟩ : ChunkRec),
          ⟨"Bb. Cc.".toList, ⟨"d".toList, "t".toList, "u".toList,
            "S".toList, 0, 1⟩⟩], tokenCount tcLen r.text ≤ 512) :=
  claim_C1_absolute_ceiling tcLen 20 7 3 1 "Aa. Bb. Cc.".toList "d".toList
    "t".toList "u".toList "S".toList 0 _ _ (by decide) (by decide) (by decide)

/-- C6: within the output of `chunk_section` for one section, the
`chunk_index` values are exactly `0, 1, 2, ...` in order — hence unique and
monotonically increasing.  (The fallback re-split of an over-512 raw chunk is
dead code here: `_chunk_section_text` never emits a text above 512 tokens, so
every chunk is a non-fallback chunk and gets the sequential index.) -/
theorem claim_C6_chunk_index (tc : Str → Nat) (fuel mt ot wo : Nat)
    (text docId docTitle sourceUrl sectionTitle : Str) (sectionOrder : Nat)
    (recs : List ChunkRec)
    (h : chunkSectionFuel fuel tc text docId docTitle sourceUrl sectionTitle
      sectionOrder mt ot wo = some recs) :
    recs.map (fun r => r.metadata.chunkIndex) = List.range recs.length ∧
      (recs.map (fun r => r.metadata.chunkIndex)).Nodup := by
  have hidx : recs.map (fun r => r.metadata.chunkIndex) = List.range recs.length := by
    unfold chunkSectionFuel at h
    split at h
    · simp only [Option.some.injEq] at h
      subst h
      simp
    · cases hraw : chunkSectionTextFuel fuel tc text mt ot wo with
      | none => rw [hraw] at h; simp at h
      | some raw =>
        rw [hraw] at h
        simp only [Option.map_some', Option.some.injEq] at h
        subst h
        rw [buildChunkRecords_of_le tc wo docId docTitle sourceUrl sectionTitle
          sectionOrder raw (chunkSectionTextFuel_OK fuel tc text mt ot wo raw hraw)]
        rw [List.map_map, List.length_map, List.enum_length]
        have : ((fun r : ChunkRec => r.metadata.chunkIndex) ∘
            (fun p : Nat × Str =>
              (⟨p.2, ⟨docId, docTitle, sourceUrl, sectionTitle, sectionOrder,
                p.1⟩⟩ : ChunkRec))) = Prod.fst := by
          funext p
          rfl
        rw [this, List.enum_map_fst]
  exact ⟨hidx, by rw [hidx]; exact List.nodup_range _⟩

/-- Witness for C6 at a concrete input: section "Aa. Bb. Cc." with
`max_tokens = 7`, `overlap_tokens = 3`, `word_overlap = 1` and the
character-level tokenizer; the two produced chunks carry indices 0 and 1. -/
theorem claim_C6_chunk_index_witness :
    ([(⟨"Aa. Bb.".toList, ⟨"d2".toList, "t".toList, "u".toList,
          "S".toList, 0, 0⟩⟩ : ChunkRec),
        ⟨"Bb. Cc.".toList, ⟨"d2".toList, "t".toList, "u".toList,
          "S".toList, 0, 1⟩⟩].map (fun r => r.metadata.chunkIndex) =
      List.range ([(⟨"Aa. Bb.".toList, ⟨"d2".toList, "t".toList, "u".toList,
          "S".toList, 0, 0⟩⟩ : ChunkRec),
        ⟨"Bb. Cc.".toList, ⟨"d2".toList, "t".toList, "u".toList,
          "S".toList, 0, 1⟩⟩].length)) ∧
      (([(⟨"Aa. Bb.".toList, ⟨"d2".toList, "t".toList, "u".toList,
          "S".toList, 0, 0⟩⟩ : ChunkRec),
        ⟨"Bb. Cc.".toList, ⟨"d2".toList, "t".toList, "u".toList,
          "S".toList, 0, 1⟩⟩].map (fun r => r.metadata.chunkIndex)).Nodup) :=
  claim_C6_chunk_index tcLen 20 7 3 1 "Aa. Bb. Cc.".toList "d2".toList
    "t".toList "u".toList "S".toList 0 _ (by decide)

/-- C7: for every sentence, every tokenizer, every `max_tokens ≥ 1` and
`word_overlap`, every piece returned by `_split_long_sentence_wordwise` either
has a token count at most `max_tokens` or is a single word of the sentence
(emitted as its own piece with no further subdivision). -/
theorem claim_C7_wordwise_ceiling (tc : Str → Nat) (text : Str) (mt wo : Nat)
    (hmt : 1 ≤ mt) :
    ∀ piece ∈ splitLongSentenceWordwise tc text mt wo,
      tokenCount tc piece ≤ mt ∨ piece ∈ pySplit text :=
  fun piece hp => splitWordwise_pieces tc text mt wo piece hp

/-- Witness for C7 at a concrete input: "superlongword tiny" with
`max_tokens = 4`, `word_overlap = 1` and the character-level tokenizer: the
piece "superlongword" is a single word of the sentence exceeding the budget. -/
theorem claim_C7_wordwise_ceiling_witness :
    tokenCount tcLen "superlongword".toList ≤ 4 ∨
      "superlongword".toList ∈ pySplit "superlongword tiny".toList :=
  claim_C7_wordwise_ceiling tcLen "superlongword tiny".toList 4 1 (by decide)
    "superlongword".toList (by decide)

/-- C8: `_split_long_sentence_wordwise` terminates for every input sentence
and all `max_tokens ≥ 1`, `word_overlap ≥ 0`: the start index strictly
increases each outer iteration (`splitNextStart_gt`), so the loop finishes
within `|words|` iterations — any fuel above `|words|` returns the same final
piece list. -/
theorem claim_C8_wordwise_terminates (tc : Str → Nat) (text : Str)
    (mt wo fuel : Nat) (hmt : 1 ≤ mt) (hfuel : (pySplit text).length < fuel) :
    splitWordwiseFuel tc mt wo (pySplit text) 0 fuel =
      some (splitLongSentenceWordwise tc text mt wo) := by
  have htot := splitWordwiseFuel_total tc mt wo (pySplit text)
    ((pySplit text).length + 1) 0 (by omega)
  cases hr : splitWordwiseFuel tc mt wo (pySplit text) 0 ((pySplit text).length + 1) with
  | none => rw [hr] at htot; simp at htot
  | some r =>
    unfold splitLongSentenceWordwise
    rw [hr]
    simp only [Option.getD_some]
    exact splitWordwiseFuel_mono_le tc mt wo (pySplit text)
      ((pySplit text).length + 1) fuel (by omega) 0 r hr

/-- Witness for C8 at a concrete input: "a b c d e" with `max_tokens = 3`,
`word_overlap = 1` and fuel 6 (one more than the 5 words). -/
theorem claim_C8_wordwise_terminates_witness :
    splitWordwiseFuel tcLen 3 1 (pySplit "a b c d e".toList) 0 6 =
      some (splitLongSentenceWordwise tcLen "a b c d e".toList 3 1) :=
  claim_C8_wordwise_terminates tcLen "a b c d e".toList 3 1 6 (by decide) (by decide)

/-- C9: `chunk_paper_sections` is deterministic: for a fixed input and fixed
parameters, and a token counter that is a fixed function of the text, two runs
produce identical chunk sequences (texts and metadata, in order). -/
theorem claim_C9_deterministic (fuel mt ot wo : Nat) (tc1 tc2 : Str → Nat)
    (sections : List (Str × Str)) (docId docTitle sourceUrl : Str)
    (h : ∀ s, tc1 s = tc2 s) :
    chunkPaperSectionsFuel fuel tc1 sections docId docTitle sourceUrl mt ot wo =
      chunkPaperSectionsFuel fuel tc2 sections docId docTitle sourceUrl mt ot wo := by
  have heq : tc1 = tc2 := funext h
  rw [heq]

/-- Witness for C9 at a concrete input: a two-section paper under the
character-level tokenizer. -/
theorem claim_C9_deterministic_witness :
    chunkPaperSectionsFuel 20 tcLen
        [("Intro".toList, "Aa. Bb. Cc.".toList), ("Res".toList, "Dd. Ee.".toList)]
        "d".toList "t".toList "u".toList 7 3 1 =
      chunkPaperSectionsFuel 20 tcLen
        [("Intro".toList, "Aa. Bb. Cc.".toList), ("Res".toList, "Dd. Ee.".toList)]
        "d".toList "t".toList "u".toList 7 3 1 :=
  claim_C9_deterministic 20 7 3 1 tcLen tcLen
    [("Intro".toList, "Aa. Bb. Cc.".toList), ("Res".toList, "Dd. Ee.".toList)]
    "d".toList "t".toList "u".toList (fun _ => rfl)

/-- C10: segmenting the exact input "The p value was 0.05. This was
significant." yields exactly the two sentences "The p value was 0.05." and
"This was significant.", with no split at the decimal point inside 0.05. -/
theorem claim_C10_decimal_protection :
    splitSentencesScientific "The p value was 0.05. This was significant.".toList =
      ["The p value was 0.05.".toList, "This was significant.".toList] := by
  decide

set_option maxRecDepth 40000

theorem divergeStep : ∀ chs, asmStep tcLen 480 80 10 [divergeSentA, divergeSentB]
    ⟨1, [divergeSentA], 301, [divergeSentA], chs⟩ =
    .inl ⟨1, [divergeSentA], 301, [divergeSentA],
      chs ++ [⟨divergeSentA, false, [divergeSentA]⟩]⟩ :=
  fun chs => rfl

theorem divergeLoop : ∀ fuel chs,
    asmLoopFuel tcLen 480 80 10 [divergeSentA, divergeSentB] fuel
      ⟨1, [divergeSentA], 301, [divergeSentA], chs⟩ = none := by
  intro fuel
  induction fuel with
  | zero => intro chs; rfl
  | succ f ih =>
    intro chs
    rw [asmLoopFuel, divergeStep chs]
    exact ih (chs ++ [⟨divergeSentA, false, [divergeSentA]⟩])

theorem divergeMain : ∀ fuel,
    asmLoopFuel tcLen 480 80 10 [divergeSentA, divergeSentB] fuel
      ⟨0, [], 0, [], []⟩ = none := by
  intro fuel
  cases fuel with
  | zero => rfl
  | succ f =>
    rw [asmLoopFuel,
      show asmStep tcLen 480 80 10 [divergeSentA, divergeSentB] ⟨0, [], 0, [], []⟩ =
        .inl ⟨1, [divergeSentA], 301, [], []⟩ from by decide]
    show asmLoopFuel tcLen 480 80 10 [divergeSentA, divergeSentB] f
      ⟨1, [divergeSentA], 301, [], []⟩ = none
    cases f with
    | zero => rfl
    | succ f2 =>
      rw [asmLoopFuel,
        show asmStep tcLen 480 80 10 [divergeSentA, divergeSentB]
            ⟨1, [divergeSentA], 301, [], []⟩ =
          .inl ⟨1, [divergeSentA], 301, [divergeSentA],
            [⟨divergeSentA, false, [divergeSentA]⟩]⟩ from by decide]
      exact divergeLoop f2 _

/-- C2: refuted — `_chunk_section_text` does NOT terminate for every input.
On the section of two 301-token sentences `divergeText`, with the default
parameters (`max_tokens = 480`, `overlap_tokens = 80`, `word_overlap = 10`) and
the character-level tokenizer, the loop never finishes for any amount of fuel:
the flush step reseeds `current_sentences` from the overlap (the whole first
sentence), the overflow condition still holds for the same unadvanced sentence,
and the state repeats forever (emitting the same chunk each time). -/
theorem claim_C2_nontermination :
    ∀ fuel, chunkSectionTextFuel fuel tcLen divergeText 480 80 10 = none := by
  intro fuel
  have hred : chunkSectionTextFuel fuel tcLen divergeText 480 80 10 =
      (asmLoopFuel tcLen 480 80 10 [divergeSentA, divergeSentB] fuel
        ⟨0, [], 0, [], []⟩).map (fun l => l.map AChunk.text) := rfl
  rw [hred, divergeMain fuel]
  rfl

/-- C3: refuted — an oversized unit is dropped, not emitted.  The section
consisting of the single 521-token word sentence `oversizedWordX` (under the
character-level tokenizer, default parameters) is segmented into one sentence,
yet both `_chunk_section_text` and `chunk_section` return NO chunks at all:
the word-wise fallback piece is filtered out by the `<= 512` check and the
final flush returns `None` ("Caller will handle") with no caller handling it. -/
theorem claim_C3_oversized_dropped :
    splitSentencesScientific oversizedWordX = [oversizedWordX] ∧
      512 < tokenCount tcLen oversizedWordX ∧
      chunkSectionTextFuel 3 tcLen oversizedWordX 480 80 10 = some [] ∧
      chunkSectionFuel 3 tcLen oversizedWordX "d".toList "t".toList "u".toList
        "S".toList 0 480 80 10 = some [] := by
  refine ⟨by decide, by decide, by decide, by decide⟩

/-- C4: refuted — a sentence can be dropped from the assembler's output.
The section consisting of the single 531-token word sentence `oversizedWordW`
is segmented into one non-empty sentence, but `_chunk_section_text` returns an
empty chunk list (default parameters, character-level tokenizer), so the
concatenation of all chunk texts does not contain the sentence: the output is
not a superset of the segmenter's sentences. -/
theorem claim_C4_sentence_dropped :
    splitSentencesScientific oversizedWordW = [oversizedWordW] ∧
      oversizedWordW ≠ [] ∧
      chunkSectionTextFuel 3 tcLen oversizedWordW 480 80 10 = some [] := by
  refine ⟨by decide, by decide, by decide⟩

theorem joinSpace_append {xs ys : List Str} (hx : xs ≠ []) (hy : ys ≠ []) :
    joinSpace (xs ++ ys) = joinSpace xs ++ ' ' :: joinSpace ys := by
  induction xs with
  | nil => exact absurd rfl hx
  | cons s rest ih =>
    by_cases hr : rest = []
    · subst hr
      rw [List.singleton_append, joinSpace_cons_of_ne hy]
      rfl
    · rw [List.cons_append, joinSpace_cons_of_ne (by simp [hr]),
        joinSpace_cons_of_ne hr, ih hr]
      simp

theorem joinSpace_take_of_prefix {seed cur : List Str}
    (h : cur.take seed.length = seed) :
    (joinSpace cur).take (joinSpace seed).length = joinSpace seed := by
  have hsplit : cur = seed ++ cur.drop seed.length := by
    conv_lhs => rw [← List.take_append_drop seed.length cur]
    rw [h]
  by_cases hseed : seed = []
  · subst hseed
    simp [joinSpace]
  · by_cases hdrop : cur.drop seed.length = []
    · rw [hdrop, List.append_nil] at hsplit
      rw [← hsplit, List.take_length]
    · rw [hsplit, joinSpace_append hseed hdrop]
      exact List.take_left _ _

theorem overlapGo_subset (tc : Str → Nat) (target : Nat) :
    ∀ (l : List Str) (count : Nat) (acc : List Str), ∀ x ∈ overlapGo tc target l count acc,
    x ∈ l ∨ x ∈ acc := by
  intro l
  induction l with
  | nil => intro count acc x hx; rw [overlapGo] at hx; exact Or.inr hx
  | cons s rest ih =>
    intro count acc x hx
    rw [overlapGo] at hx
    split at hx
    · exact Or.inr hx
    · rcases ih _ _ x hx with h | h
      · exact Or.inl (List.mem_cons_of_mem s h)
      · rcases List.mem_cons.mp h with h2 | h2
        · exact Or.inl (by simp [h2])
        · exact Or.inr h2

theorem getOverlapSentences_subset (tc : Str → Nat) (sents : List Str) (target : Nat) :
    ∀ x ∈ getOverlapSentences tc sents target, x ∈ sents := by
  intro x hx
  rcases overlapGo_subset tc target sents.reverse 0 [] x hx with h | h
  · exact List.mem_reverse.mp h
  · simp at h

theorem pySplitF_eq_nil : ∀ (f : Nat) (l : Str), l.length < f →
    pySplitF f l = [] → pyStrip l = [] := by
  intro f
  induction f with
  | zero => intro l h; omega
  | succ f ih =>
    intro l hlen h
    cases l with
    | nil => rfl
    | cons c rest =>
      rw [pySplitF] at h
      split at h
      · rename_i hws
        have := ih rest (by simp at hlen; omega) h
        unfold pyStrip at this ⊢
        rwa [List.dropWhile_cons_of_pos hws]
      · simp at h

theorem pySplit_eq_nil {l : Str} (h : pySplit l = []) : pyStrip l = [] :=
  pySplitF_eq_nil (l.length + 1) l (by omega) h

theorem pySplit_ne_nil {l : Str} (h : pyStrip l ≠ []) : pySplit l ≠ [] :=
  fun hc => h (pySplit_eq_nil hc)

theorem pyTakeLast_mem {k : Nat} {l : List Str} : ∀ x ∈ pyTakeLast k l, x ∈ l := by
  intro x hx
  unfold pyTakeLast at hx
  split at hx
  · exact hx
  · exact List.mem_of_mem_drop hx

theorem pyTakeLast_ne_nil {k : Nat} {l : List Str} (h : l ≠ []) :
    pyTakeLast k l ≠ [] := by
  unfold pyTakeLast
  split
  · exact h
  · intro hc
    have h1 : l.length - (l.length - k) = 0 := by
      have := List.length_drop (l.length - k) l
      rw [hc] at this
      simp at this
      omega
    have h2 : 0 < l.length := List.length_pos.mpr h
    rename_i hk
    omega

theorem pyTakeLast_singleton (k : Nat) (x : Str) : pyTakeLast k [x] = [x] := by
  unfold pyTakeLast
  split
  · rfl
  · rename_i hk
    have : (1 : Nat) - k = 0 := by omega
    simp [this]

theorem splitWordwise_ne_nil (tc : Str → Nat) (text : Str) (mt wo : Nat)
    (h : pySplit text ≠ []) : splitLongSentenceWordwise tc text mt wo ≠ [] := by
  unfold splitLongSentenceWordwise
  rw [splitWordwiseFuel]
  have hlen : 0 < (pySplit text).length := List.length_pos.mpr h
  rw [if_pos hlen]
  have htot := splitWordwiseFuel_total tc mt wo (pySplit text) ((pySplit text).length)
    (splitNextStart tc mt wo (pySplit text) 0)
    (by have := splitNextStart_gt tc mt wo (pySplit text) 0 hlen; omega)
  cases hr : splitWordwiseFuel tc mt wo (pySplit text)
      (splitNextStart tc mt wo (pySplit text) 0) ((pySplit text).length) with
  | none => rw [hr] at htot; simp at htot
  | some r =>
    simp only [Option.map_some', Option.getD_some]
    obtain ⟨w, rest, hw⟩ := List.exists_cons_of_ne_nil h
    have hgw : growWin tc mt ((pySplit text).drop 0) [] ≠ [] := by
      rw [List.drop_zero, hw]
      rcases growWin_pos tc mt w rest [] with h1 | h1
      · intro hc
        rw [hc] at h1
        simp at h1
      · exact absurd rfl h1
    rw [if_neg (by simpa using hgw)]
    simp

theorem keptList_fromSplit (tc : Str → Nat) (mt wo : Nat) (sent : Str) :
    ∀ c ∈ keptList tc mt wo sent, c.fromSplit = true := by
  intro c hc
  unfold keptList at hc
  rw [List.mem_map] at hc
  obtain ⟨sc, _, hmk⟩ := hc
  rw [← hmk]

theorem chain'_fromSplit {l : List AChunk} (h : ∀ c ∈ l, c.fromSplit = true) :
    List.Chain' overlapSeeds l := by
  induction l with
  | nil => simp
  | cons c rest ih =>
    rw [List.chain'_cons']
    constructor
    · intro y hy _ h2
      have := h y (List.mem_cons_of_mem c (List.mem_of_mem_head? hy))
      rw [this] at h2
      simp at h2
    · exact ih (fun x hx => h x (List.mem_cons_of_mem c hx))

theorem stuck_flush_fails {tc : Str → Nat} {σ : AsmSt} (ot : Nat)
    (h : StuckSt tc σ) :
    flushChunk tc ot σ.current σ.overlap = (none, σ.overlap) := by
  obtain ⟨w, hcur, hov, hne, hnws, htok, _⟩ := h
  rw [hcur]
  have hjoin : joinSpace [w] = w := rfl
  have hstrip : pyStrip w = w := pyStrip_eq_self (clean_of_noWS hne hnws)
  unfold flushChunk
  rw [if_neg (by simp), hjoin, hstrip,
    if_neg (by simpa using hne), if_pos htok]

theorem flush_clean_cases (tc : Str → Nat) (ot : Nat) (cur ov : List Str)
    (hne : cur ≠ []) (hclean : ∀ s ∈ cur, Clean s) :
    (flushChunk tc ot cur ov =
        (some (joinSpace cur), getOverlapSentences tc cur ot) ∧
      tokenCount tc (joinSpace cur) ≤ 512) ∨
    (flushChunk tc ot cur ov = (none, ov) ∧
      512 < tokenCount tc (joinSpace cur)) := by
  have hjc : Clean (joinSpace cur) := joinSpace_clean hne hclean
  have hstrip : pyStrip (joinSpace cur) = joinSpace cur := pyStrip_eq_self hjc
  unfold flushChunk
  rw [if_neg (by simpa using hne), hstrip, if_neg (by simpa using hjc.1)]
  by_cases htok : 512 < tokenCount tc (joinSpace cur)
  · rw [if_pos htok]
    exact Or.inr ⟨rfl, htok⟩
  · rw [if_neg htok]
    exact Or.inl ⟨rfl, by omega⟩

theorem link_flush_boundary (tc : Str → Nat) (σ : AsmSt) (sel : List Str)
    (hinv : SeedInv tc σ)
    (htok : tokenCount tc (joinSpace σ.current) ≤ 512) :
    ∀ x ∈ σ.chunks.getLast?, overlapSeeds x ⟨joinSpace σ.current, false, sel⟩ := by
  intro x hx
  obtain ⟨hc, ho, hch, hlink⟩ := hinv
  have hx2 : σ.chunks.getLast? = some x := hx
  rw [hx2] at hlink
  intro h1 _
  rcases hlink with hl | hl | hl
  · rw [hl] at h1
    simp at h1
  · exact joinSpace_take_of_prefix hl.1
  · obtain ⟨w, hcur, _, _, _, hwtok, _⟩ := hl
    rw [hcur] at htok
    have hj : joinSpace [w] = w := rfl
    rw [hj] at htok
    omega

theorem branchA_inv (tc : Str → Nat) (mt ot wo : Nat) (hmt : mt ≤ 512)
    (σ : AsmSt) (sent : Str) (i2 : Nat)
    (hst : mt < tokenCount tc sent) (hinv : SeedInv tc σ) :
    SeedInv tc ⟨i2,
      (if (wordTailOv tc mt wo sent).isEmpty then []
       else [joinSpace (wordTailOv tc mt wo sent)]),
      (match (if (wordTailOv tc mt wo sent).isEmpty then ([] : List Str)
          else [joinSpace (wordTailOv tc mt wo sent)]).head? with
       | some s => tokenCount tc s
       | none => 0),
      wordTailOv tc mt wo sent,
      σ.chunks ++ flushedList tc ot σ.current σ.overlap ++ keptList tc mt wo sent⟩ := by
  have hstrip_sent : pyStrip sent ≠ [] := by
    intro hc
    unfold tokenCount at hst
    rw [if_pos hc] at hst
    omega
  have hsub : splitLongSentenceWordwise tc sent mt wo ≠ [] :=
    splitWordwise_ne_nil tc sent mt wo (pySplit_ne_nil hstrip_sent)
  obtain ⟨lp, hlp⟩ : ∃ lp, (splitLongSentenceWordwise tc sent mt wo).getLast? = some lp :=
    ⟨(splitLongSentenceWordwise tc sent mt wo).getLast hsub,
      List.getLast?_eq_getLast _ hsub⟩
  have hlpmem : lp ∈ splitLongSentenceWordwise tc sent mt wo :=
    List.mem_of_mem_getLast? hlp
  have hlpclean : Clean lp := splitWordwise_clean tc mt wo sent lp hlpmem
  have hov_eq : wordTailOv tc mt wo sent = pyTakeLast wo (pySplit lp) := by
    unfold wordTailOv
    rw [hlp]
  have hlp_split_ne : pySplit lp ≠ [] := by
    apply pySplit_ne_nil
    rw [pyStrip_eq_self hlpclean]
    exact hlpclean.1
  have hovne : wordTailOv tc mt wo sent ≠ [] := by
    rw [hov_eq]
    exact pyTakeLast_ne_nil hlp_split_ne
  have hovclean : ∀ s ∈ wordTailOv tc mt wo sent, Clean s := by
    intro s hs
    rw [hov_eq] at hs
    have hsmem := pyTakeLast_mem s hs
    obtain ⟨hne2, hnws⟩ := pySplit_words s hsmem
    exact clean_of_noWS hne2 hnws
  have hcur_eq : (if (wordTailOv tc mt wo sent).isEmpty then ([] : List Str)
      else [joinSpace (wordTailOv tc mt wo sent)]) =
      [joinSpace (wordTailOv tc mt wo sent)] :=
    if_neg (by simpa using hovne)
  obtain ⟨hc, ho, hch, hlink⟩ := hinv
  have hkept_fs := keptList_fromSplit tc mt wo sent
  -- the boundary between the old chunks (plus flushed) and the kept pieces
  have hbound_kept : ∀ l : List AChunk,
      ∀ x ∈ l.getLast?, ∀ y ∈ (keptList tc mt wo sent).head?, overlapSeeds x y := by
    intro l x _ y hy
    intro _ h2
    have := hkept_fs y (List.mem_of_mem_head? hy)
    rw [this] at h2
    simp at h2
  -- the new chunk list is chained
  have hchain2 : List.Chain' overlapSeeds
      (σ.chunks ++ flushedList tc ot σ.current σ.overlap ++ keptList tc mt wo sent) := by
    rw [List.chain'_append]
    refine ⟨?_, chain'_fromSplit hkept_fs, hbound_kept _⟩
    rw [List.chain'_append]
    refine ⟨hch, ?_, ?_⟩
    · by_cases hcn : σ.current = []
      · rw [show flushedList tc ot σ.current σ.overlap = [] from by
          unfold flushedList flushChunk
          rw [if_pos (by simp [hcn])]]
        simp
      · rcases flush_clean_cases tc ot σ.current σ.overlap hcn hc with ⟨hfe, _⟩ | ⟨hfe, _⟩ <;>
          unfold flushedList <;> rw [hfe] <;> simp
    · intro x hx y hy
      by_cases hcn : σ.current = []
      · rw [show flushedList tc ot σ.current σ.overlap = [] from by
          unfold flushedList flushChunk
          rw [if_pos (by simp [hcn])]] at hy
        simp at hy
      · rcases flush_clean_cases tc ot σ.current σ.overlap hcn hc with ⟨hfe, htk⟩ | ⟨hfe, _⟩
        · rw [show flushedList tc ot σ.current σ.overlap =
              [⟨joinSpace σ.current, false, getOverlapSentences tc σ.current ot⟩] from by
            unfold flushedList
            rw [hfe]] at hy
          have hy2 : y = ⟨joinSpace σ.current, false,
              getOverlapSentences tc σ.current ot⟩ := by
            have := hy
            simp only [List.head?_cons, Option.mem_def, Option.some.injEq] at this
            exact this.symm
          subst hy2
          exact link_flush_boundary tc σ _ ⟨hc, ho, hch, hlink⟩ htk x hx
        · rw [show flushedList tc ot σ.current σ.overlap = [] from by
            unfold flushedList
            rw [hfe]] at hy
          simp at hy
  refine ⟨?_, hovclean, hchain2, ?_⟩
  · rw [hcur_eq]
    intro s hs
    rw [List.mem_singleton] at hs
    subst hs
    exact joinSpace_clean hovne hovclean
  · -- the link for the new state
    by_cases hkept : keptList tc mt wo sent = []
    · -- every fallback piece was dropped: the state is stuck
      have hall : ∀ piece ∈ splitLongSentenceWordwise tc sent mt wo,
          512 < tokenCount tc piece := by
        intro piece hp
        unfold keptList at hkept
        have := List.filter_eq_nil_iff.mp (List.map_eq_nil_iff.mp hkept) piece hp
        simpa using this
      have hlp_tok : 512 < tokenCount tc lp := hall lp hlpmem
      have hlp_word : lp ∈ pySplit sent := by
        rcases splitWordwise_pieces tc sent mt wo lp hlpmem with h1 | h1
        · omega
        · exact h1
      obtain ⟨hlpne, hlpnws⟩ := pySplit_words lp hlp_word
      have hov2 : wordTailOv tc mt wo sent = [lp] := by
        rw [hov_eq, pySplit_single hlpne hlpnws, pyTakeLast_singleton]
      have hstuck : StuckSt tc ⟨i2,
          (if (wordTailOv tc mt wo sent).isEmpty then []
           else [joinSpace (wordTailOv tc mt wo sent)]),
          (match (if (wordTailOv tc mt wo sent).isEmpty then ([] : List Str)
              else [joinSpace (wordTailOv tc mt wo sent)]).head? with
           | some s => tokenCount tc s
           | none => 0),
          wordTailOv tc mt wo sent,
          σ.chunks ++ flushedList tc ot σ.current σ.overlap ++ keptList tc mt wo sent⟩ := by
        refine ⟨lp, ?_, ?_, hlpne, hlpnws, hlp_tok, ?_⟩
        · show (if (wordTailOv tc mt wo sent).isEmpty then ([] : List Str)
              else [joinSpace (wordTailOv tc mt wo sent)]) = [lp]
          rw [hcur_eq, hov2]
          rfl
        · exact hov2
        · show 512 < (match (if (wordTailOv tc mt wo sent).isEmpty then ([] : List Str)
              else [joinSpace (wordTailOv tc mt wo sent)]).head? with
           | some s => tokenCount tc s
           | none => 0)
          rw [hcur_eq, hov2]
          simpa using hlp_tok
      cases hgl : (σ.chunks ++ flushedList tc ot σ.current σ.overlap ++
          keptList tc mt wo sent).getLast? with
      | none => simp
      | some c =>
        simp only [hgl]
        exact Or.inr (Or.inr hstuck)
    · -- the last chunk is a kept fallback piece
      cases hgl : (σ.chunks ++ flushedList tc ot σ.current σ.overlap ++
          keptList tc mt wo sent).getLast? with
      | none => simp
      | some c =>
        simp only [hgl]
        left
        rw [List.getLast?_append_of_ne_nil _ hkept] at hgl
        exact hkept_fs c (List.mem_of_mem_getLast? hgl)

theorem branchB_inv (tc : Str → Nat) (ot : Nat) (σ : AsmSt)
    (hcurne : σ.current ≠ []) (hinv : SeedInv tc σ) :
    SeedInv tc ⟨σ.i, (flushChunk tc ot σ.current σ.overlap).2,
      (((flushChunk tc ot σ.current σ.overlap).2).map (tokenCount tc)).sum,
      (flushChunk tc ot σ.current σ.overlap).2,
      σ.chunks ++ flushedList tc ot σ.current σ.overlap⟩ := by
  obtain ⟨hc, ho, hch, hlink⟩ := hinv
  rcases flush_clean_cases tc ot σ.current σ.overlap hcurne hc with ⟨hfe, htk⟩ | ⟨hfe, htk⟩
  · have hfl : flushedList tc ot σ.current σ.overlap =
        [⟨joinSpace σ.current, false, getOverlapSentences tc σ.current ot⟩] := by
      unfold flushedList
      rw [hfe]
    rw [hfl, hfe]
    dsimp only
    have hovsub : ∀ s ∈ getOverlapSentences tc σ.current ot, Clean s :=
      fun s hs => hc s (getOverlapSentences_subset tc σ.current ot s hs)
    refine ⟨hovsub, hovsub, ?_, ?_⟩
    · rw [List.chain'_append]
      refine ⟨hch, by simp, ?_⟩
      intro x hx y hy
      have hy2 : y = ⟨joinSpace σ.current, false,
          getOverlapSentences tc σ.current ot⟩ := by
        have := hy
        simp only [List.head?_cons, Option.mem_def, Option.some.injEq] at this
        exact this.symm
      subst hy2
      exact link_flush_boundary tc σ _ ⟨hc, ho, hch, hlink⟩ htk x hx
    · dsimp only
      rw [List.getLast?_append_of_ne_nil σ.chunks
        (show [(⟨joinSpace σ.current, false,
          getOverlapSentences tc σ.current ot⟩ : AChunk)] ≠ [] by simp)]
      simp only [List.getLast?_singleton]
      right
      left
      exact ⟨List.take_length _, trivial⟩
  · have hfl : flushedList tc ot σ.current σ.overlap = [] := by
      unfold flushedList
      rw [hfe]
    rw [hfl, hfe]
    dsimp only
    rw [List.append_nil]
    refine ⟨ho, ho, hch, ?_⟩
    cases hgl : σ.chunks.getLast? with
    | none => simp
    | some c =>
      rw [hgl] at hlink
      simp only
      rcases hlink with hl | hl | hl
      · exact Or.inl hl
      · right
        left
        rw [hl.2]
        exact ⟨List.take_length _, rfl⟩
      · right
        right
        obtain ⟨w, hcur, hov, hne, hnws, hwtok, _⟩ := hl
        refine ⟨w, hov, hov, hne, hnws, hwtok, ?_⟩
        show 512 < (σ.overlap.map (tokenCount tc)).sum
        rw [hov]
        simpa using hwtok

theorem branchC_inv (tc : Str → Nat) (mt : Nat) (hmt : mt ≤ 512) (σ : AsmSt)
    (sent : Str) (hsentclean : Clean sent)
    (hnotb : ¬(mt < σ.curTok + tokenCount tc sent ∧ ¬σ.current.isEmpty))
    (hinv : SeedInv tc σ) :
    SeedInv tc ⟨σ.i + 1, σ.current ++ [sent], σ.curTok + tokenCount tc sent,
      σ.overlap, σ.chunks⟩ := by
  obtain ⟨hc, ho, hch, hlink⟩ := hinv
  refine ⟨?_, ho, hch, ?_⟩
  · intro s hs
    rcases List.mem_append.mp hs with h | h
    · exact hc s h
    · rw [List.mem_singleton] at h
      subst h
      exact hsentclean
  · cases hgl : σ.chunks.getLast? with
    | none => simp
    | some c =>
      rw [hgl] at hlink
      simp only
      rcases hlink with hl | hl | hl
      · exact Or.inl hl
      · right
        left
        obtain ⟨htake, hoveq⟩ := hl
        have hlen : c.seed.length ≤ σ.current.length := by
          have := congrArg List.length htake
          simp only [List.length_take] at this
          omega
        rw [List.take_append_of_le_length hlen]
        exact ⟨htake, hoveq⟩
      · exfalso
        obtain ⟨w, hcur, _, _, _, _, hctok⟩ := hl
        exact hnotb ⟨by omega, by simp [hcur]⟩

theorem finalFlush_chain (tc : Str → Nat) (ot : Nat) (σ : AsmSt)
    (hinv : SeedInv tc σ) :
    List.Chain' overlapSeeds (σ.chunks ++
      match (flushChunk tc ot σ.current σ.overlap).1 with
      | some t =>
        if tokenCount tc t ≤ 512 then
          [⟨t, false, (flushChunk tc ot σ.current σ.overlap).2⟩]
        else []
      | none => []) := by
  obtain ⟨hc, ho, hch, hlink⟩ := hinv
  by_cases hcn : σ.current = []
  · rw [show flushChunk tc ot σ.current σ.overlap = (none, σ.overlap) from by
      unfold flushChunk
      rw [if_pos (by simp [hcn])]]
    simpa using hch
  · rcases flush_clean_cases tc ot σ.current σ.overlap hcn hc with ⟨hfe, htk⟩ | ⟨hfe, _⟩
    · rw [hfe]
      dsimp only
      rw [if_pos htk]
      rw [List.chain'_append]
      refine ⟨hch, by simp, ?_⟩
      intro x hx y hy
      have hy2 : y = ⟨joinSpace σ.current, false,
          getOverlapSentences tc σ.current ot⟩ := by
        have := hy
        simp only [List.head?_cons, Option.mem_def, Option.some.injEq] at this
        exact this.symm
      subst hy2
      exact link_flush_boundary tc σ _ ⟨hc, ho, hch, hlink⟩ htk x hx
    · rw [hfe]
      simpa using hch

theorem asmStep_seedInv (tc : Str → Nat) (mt ot wo : Nat) (sentences : List Str)
    (hmt : mt ≤ 512) (hsc : ∀ s ∈ sentences, Clean s) (σ σ2 : AsmSt)
    (hinv : SeedInv tc σ)
    (h : asmStep tc mt ot wo sentences σ = .inl σ2) : SeedInv tc σ2 := by
  unfold asmStep at h
  split at h
  · rename_i hi
    dsimp only at h
    split at h
    · rename_i hst
      simp only [Sum.inl.injEq] at h
      subst h
      exact branchA_inv tc mt ot wo hmt σ _ _ hst hinv
    · split at h
      · rename_i hst hcond
        simp only [Sum.inl.injEq] at h
        subst h
        refine branchB_inv tc ot σ ?_ hinv
        intro hcn
        exact hcond.2 (by simp [hcn])
      · rename_i hst hnotb
        simp only [Sum.inl.injEq] at h
        subst h
        refine branchC_inv tc mt hmt σ _ ?_ hnotb hinv
        apply hsc
        rw [List.getD_eq_getElem sentences [] hi]
        exact List.getElem_mem hi
  · simp at h

theorem asmStep_seedFinal (tc : Str → Nat) (mt ot wo : Nat) (sentences : List Str)
    (σ : AsmSt) (out : List AChunk) (hinv : SeedInv tc σ)
    (h : asmStep tc mt ot wo sentences σ = .inr out) :
    List.Chain' overlapSeeds out := by
  unfold asmStep at h
  split at h
  · dsimp only at h
    split at h
    · simp at h
    · split at h
      · simp at h
      · simp at h
  · simp only [Sum.inr.injEq] at h
    subst h
    exact finalFlush_chain tc ot σ hinv

theorem asmLoop_chain (tc : Str → Nat) (mt ot wo : Nat) (sentences : List Str)
    (hmt : mt ≤ 512) (hsc : ∀ s ∈ sentences, Clean s) :
    ∀ fuel (σ : AsmSt) (out : List AChunk), SeedInv tc σ →
    asmLoopFuel tc mt ot wo sentences fuel σ = some out →
    List.Chain' overlapSeeds out := by
  intro fuel
  induction fuel with
  | zero => intro σ out _ h; simp [asmLoopFuel] at h
  | succ f ih =>
    intro σ out hinv h
    rw [asmLoopFuel] at h
    cases hstep : asmStep tc mt ot wo sentences σ with
    | inl σ2 =>
      rw [hstep] at h
      exact ih σ2 out (asmStep_seedInv tc mt ot wo sentences hmt hsc σ σ2 hinv hstep) h
    | inr o =>
      rw [hstep] at h
      simp only [Option.some.injEq] at h
      subst h
      exact asmStep_seedFinal tc mt ot wo sentences σ o hinv hstep

/-- C5: overlap continuity.  For any two consecutive chunks of
`_chunk_section_text` for one section (with `max_tokens ≤ 512`) that are both
flush-produced (the non-fallback path), the trailing sentences of the first
chunk that were selected as its overlap — its recorded `seed`, computed by
`_get_overlap_sentences` scanning backward until the cumulative token count
reaches `overlap_tokens` — appear verbatim, joined by single spaces, as a
prefix of the second chunk's text. -/
theorem claim_C5_overlap_prefix (tc : Str → Nat) (fuel mt ot wo : Nat)
    (text : Str) (out : List AChunk) (hmt : mt ≤ 512)
    (h : chunkSectionTextTaggedFuel fuel tc text mt ot wo = some out) :
    List.Chain' overlapSeeds out := by
  unfold chunkSectionTextTaggedFuel at h
  dsimp only at h
  split at h
  · simp only [Option.some.injEq] at h
    subst h
    simp
  · refine asmLoop_chain tc mt ot wo (splitSentencesScientific text) hmt
      (fun s hs => splitSentencesScientific_clean s hs) fuel _ out ?_ h
    exact ⟨fun s hs => absurd hs (List.not_mem_nil s),
      fun s hs => absurd hs (List.not_mem_nil s), List.chain'_nil, trivial⟩

/-- Witness for C5 at a concrete input: "Aa. Bb. Cc." with `max_tokens = 7`,
`overlap_tokens = 3`, `word_overlap = 1` and the character-level tokenizer:
the first chunk "Aa. Bb." selects overlap ["Bb."], which is a verbatim prefix
of the second chunk "Bb. Cc.". -/
theorem claim_C5_overlap_prefix_witness :
    List.Chain' overlapSeeds
      [⟨"Aa. Bb.".toList, false, ["Bb.".toList]⟩,
        ⟨"Bb. Cc.".toList, false, ["Cc.".toList]⟩] :=
  claim_C5_overlap_prefix tcLen 20 7 3 1 "Aa. Bb. Cc.".toList _ (by decide) (by decide)
